/-
Verification of the EasyTier distance-vector routing engine
(`easytier-core/src/peers/peer_rip_route.rs`).

Shallow embedding conventions:
* `PeerId` (a 128-bit UUID in the source) is modelled as `Nat`; equality is
  the only operation the source performs on it.
* `u32` quantities (route cost, the version counter) are modelled as `Nat`
  with arithmetic reduced modulo `U32 = 2^32` exactly where the source
  performs `u32` addition (`neighbor.cost + 1`, `fetch_add(1)`), matching
  release-mode / atomic wrapping semantics.
* `Ipv4Addr` is modelled as `Nat`; `cidr::IpCidr` as a `(network, prefix
  length)` pair with containment by high-bit agreement.
* `DashMap` tables that the source only reads pointwise (`route_info`,
  `ipv4_peer_id_map`, the `last_send_time_map`) are modelled as functions
  `Nat → Option _`; tables the source iterates (`sync_peer_from_remote`,
  `cidr_peer_id_map`, the peer list) are modelled as association lists, so
  that an iteration order is explicit.
* `Instant` timestamps are modelled as `Int` seconds; `elapsed()` is
  saturating subtraction, as for `Instant`.
* Panics (the `unwrap` on decode and the `assert_eq` on the sender id in
  `handle_route_packet`) are modelled as `Except.error`.
-/
import Mathlib

set_option maxHeartbeats 1000000

/-- `2^32`, the modulus of the source's `u32` arithmetic. -/
def U32 : Nat := 4294967296

/-- Model of `cidr::IpCidr`: a network address together with a prefix
length.  Containment compares the high `len` bits. -/
structure IpCidr where
  network : Nat
  len : Nat
deriving DecidableEq, Repr

/-- `IpCidr::contains`: the address agrees with the network on the prefix. -/
def IpCidr.containsIp (c : IpCidr) (ip : Nat) : Bool :=
  ip / 2 ^ (32 - c.len) = c.network / 2 ^ (32 - c.len)

/-- `SyncPeerInfo` from the source: an advertised peer attribute record.
Inside the route table the `peer_id` field is overwritten with the
next-hop id (see `clone_for_route_table`).  `proxy_cidrs` is kept in
parsed form (the source parses the strings during the rebuild). -/
structure SyncPeerInfo where
  peer_id : Nat
  cost : Nat
  ipv4_addr : Option Nat
  proxy_cidrs : List IpCidr
  hostname : Option String
  udp_stun_info : Int
deriving DecidableEq, Repr

/-- `SyncPeer` from the source: the wire advertisement. -/
structure SyncPeer where
  myself : SyncPeerInfo
  neighbors : List SyncPeerInfo
  version : Nat
  peer_version : Option Nat
  need_reply : Bool
deriving DecidableEq, Repr

/-- `SyncPeerFromRemote`: a stored advertisement with its receipt time. -/
structure SyncPeerFromRemote where
  packet : SyncPeer
  last_update : Int
deriving DecidableEq, Repr

/-- The remote-view store `sync_peer_from_remote`, an association list
keyed by sender id (the source's `DashMap<Uuid, SyncPeerFromRemote>`). -/
def RemoteStore : Type := List (Nat × SyncPeerFromRemote)

/-- `RouteTable` from the source: next-hop map plus the two address
indices. -/
structure RouteTable where
  route_info : Nat → Option SyncPeerInfo
  ipv4_peer_id_map : Nat → Option Nat
  cidr_peer_id_map : List (IpCidr × Nat)

/-- `RouteTable::new()`. -/
def RouteTable.empty : RouteTable :=
  { route_info := fun _ => none
    ipv4_peer_id_map := fun _ => none
    cidr_peer_id_map := [] }

/-- Pointwise update of a function-modelled map (`DashMap::insert` /
`DashMap::remove`). -/
def fset {α : Type} (m : Nat → Option α) (k : Nat) (v : Option α) :
    Nat → Option α :=
  fun x => if x = k then v else m x

/-- First-match lookup in an association list (`DashMap::get` for the
list-modelled maps). -/
def alookup {α : Type} : List (Nat × α) → Nat → Option α
  | [], _ => none
  | (k, v) :: rest, x => if x = k then some v else alookup rest x

/-- Key-membership in an association list. -/
def akeymem {α : Type} (l : List (Nat × α)) (k : Nat) : Bool :=
  (alookup l k).isSome

/-- Per-binding replacement used by `aset`. -/
def replKV {α : Type} (k : Nat) (v : α) (e : Nat × α) : Nat × α :=
  if e.1 = k then (k, v) else e

/-- `DashMap::insert` on a list-modelled map: replace the value at the key
if present, otherwise append the binding. -/
def aset {α : Type} (l : List (Nat × α)) (k : Nat) (v : α) : List (Nat × α) :=
  if akeymem l k then l.map (replKV k v) else l ++ [(k, v)]

/-- `DashMap::insert` on the cidr index (keys are cidrs, not `Nat`). -/
def cset (l : List (IpCidr × Nat)) (k : IpCidr) (v : Nat) :
    List (IpCidr × Nat) :=
  if (l.lookup k).isSome then l.map (fun e => if e.1 = k then (k, v) else e)
  else l ++ [(k, v)]

/-- `SyncPeerInfo::clone_for_route_table(next_hop, cost, from)`: the route
table entry installed for a destination — attributes are taken from
`from`, the `peer_id` field records the next hop, `cost` the hop count. -/
def clone_for_route_table (next_hop : Nat) (cost : Nat)
    (src : SyncPeerInfo) : SyncPeerInfo :=
  { peer_id := next_hop
    cost := cost
    ipv4_addr := src.ipv4_addr
    proxy_cidrs := src.proxy_cidrs
    hostname := src.hostname
    udp_stun_info := src.udp_stun_info }

/-- The `update` closure inside `update_route_table_with_req`:
`entry(node_id).and_modify(replace if cheaper).or_insert(...)`, then
removal of the just-read value when its cost exceeds 6, then the ipv4 and
cidr index writes.  `gw` is the captured `peer_id` of the sender (the next
hop). -/
def rt_update (gw : Nat) (rt : RouteTable) (cost : Nat)
    (peer_info : SyncPeerInfo) : RouteTable :=
  let node_id := peer_info.peer_id
  let newVal : SyncPeerInfo :=
    match rt.route_info node_id with
    | none => clone_for_route_table gw cost peer_info
    | some info =>
        if info.cost > cost then clone_for_route_table gw cost peer_info
        else info
  let rt1 : RouteTable :=
    { rt with route_info := fset rt.route_info node_id (some newVal) }
  let rt2 : RouteTable :=
    if newVal.cost > 6 then
      { rt1 with route_info := fset rt1.route_info node_id none }
    else rt1
  let rt3 : RouteTable :=
    match peer_info.ipv4_addr with
    | some ip =>
        { rt2 with ipv4_peer_id_map := fset rt2.ipv4_peer_id_map ip (some node_id) }
    | none => rt2
  { rt3 with
    cidr_peer_id_map :=
      peer_info.proxy_cidrs.foldl (fun l c => cset l c node_id)
        rt3.cidr_peer_id_map }

/-- `BasicRoute::update_route_table_with_req`: fold one stored
advertisement into the working table.  Note the source order: neighbors
(skipping `my_id`) first, the sender (`packet.myself`, at cost 1) last.
Neighbor costs go through `u32` addition. -/
def update_route_table_with_req (my_id : Nat) (packet : SyncPeer)
    (rt : RouteTable) : RouteTable :=
  let gw := packet.myself.peer_id
  let rt' := packet.neighbors.foldl
    (fun rt n =>
      if n.peer_id = my_id then rt
      else rt_update gw rt ((n.cost + 1) % U32) n) rt
  rt_update gw rt' 1 packet.myself

/-- `BasicRoute::update_route_table`: rebuild a fresh table from the
stored advertisements (the source builds into a new `RouteTable` and
copies it over the shared one; the result is the new table).  The caller
passes the store's values in iteration order. -/
def update_route_table (my_id : Nat) (views : List SyncPeer) : RouteTable :=
  views.foldl (fun rt v => update_route_table_with_req my_id v rt)
    RouteTable.empty

/-- `BasicRoute::get_next_hop`. -/
def get_next_hop (rt : RouteTable) (dst : Nat) : Option Nat :=
  (rt.route_info dst).map (fun info => info.peer_id)

/-- `BasicRoute::get_peer_id_for_proxy`: first cidr in iteration order
containing the address. -/
def get_peer_id_for_proxy (rt : RouteTable) (ip : Nat) : Option Nat :=
  match rt.cidr_peer_id_map.find? (fun e => e.1.containsIp ip) with
  | some e => some e.2
  | none => none

/-- `BasicRoute::get_peer_id_by_ipv4`: exact ipv4 index first, then the
proxy-cidr scan. -/
def get_peer_id_by_ipv4 (rt : RouteTable) (ip : Nat) : Option Nat :=
  match rt.ipv4_peer_id_map ip with
  | some pid => some pid
  | none => get_peer_id_for_proxy rt ip

/-- `RouteVersion::inc`: `AtomicU32::fetch_add(1, Relaxed)` — wrapping
`u32` increment. -/
def route_version_inc (v : Nat) : Nat := (v + 1) % U32

/-- The engine state touched by the claims: the remote-view store, the
shared route table, the version counter and the advertiser's
`last_send_time_map` (a triple `(my_version_when_sent, their_version_we
_acked, send_time)`). -/
structure EngineState where
  myId : Nat
  store : List (Nat × SyncPeerFromRemote)
  table : RouteTable
  version : Nat
  lastSend : Nat → Option (Nat × Option Nat × Int)

/-- The packets currently in the store, in iteration order (what
`update_route_table` folds over: `item.value().packet`). -/
def storeViews (store : List (Nat × SyncPeerFromRemote)) : List SyncPeer :=
  store.map (fun e => e.2.packet)

/-- The store upsert inside `handle_route_packet`:
`entry(..).and_modify(..).or_insert(..)`.  Returns the `updated` flag
(material change: `myself` or `neighbors` differ) and the new store.  On
a non-material hit only `version`, `peer_version` and `last_update` are
refreshed. -/
def store_upsert (store : List (Nat × SyncPeerFromRemote)) (key : Nat)
    (p : SyncPeer) (now : Int) : Bool × List (Nat × SyncPeerFromRemote) :=
  match alookup store key with
  | some v =>
      if v.packet.myself = p.myself ∧ v.packet.neighbors = p.neighbors then
        (false,
          aset store key
            ⟨{ v.packet with version := p.version, peer_version := p.peer_version },
              now⟩)
      else (true, aset store key ⟨p, now⟩)
  | none => (true, store ++ [(key, ⟨p, now⟩)])

/-- The `need_reply` branch of `handle_route_packet`: rewind the recorded
send time for the sender so the advertiser replies early.  `v.2` is set
3600 s into the past when the recorded handshake is stale, else clamped
to `FAST_REPLY_DURATION = 60 - 5 = 55` seconds ago when the last send is
fresher than that. -/
def fast_reply_adjust (m : Nat → Option (Nat × Option Nat × Int))
    (key : Nat) (cur_version : Nat) (p_version : Nat) (now : Int) :
    Nat → Option (Nat × Option Nat × Int) :=
  match m key with
  | none => m
  | some v =>
      if v.1 ≠ cur_version ∨ v.2.1 ≠ some p_version then
        fset m key (some (v.1, v.2.1, now - 3600))
      else if max (now - v.2.2) 0 < 55 then
        fset m key (some (v.1, v.2.1, now - 55))
      else m

/-- The successful body of `handle_route_packet` (after the decode and
the sender-id assertion): upsert the store; on material change rebuild
the table and bump the version; on `need_reply` rewind the send time. -/
def handle_route_ok (st : EngineState) (p : SyncPeer) (now : Int) :
    EngineState :=
  let r := store_upsert st.store p.myself.peer_id p now
  let st1 : EngineState :=
    if r.1 then
      { st with
        store := r.2
        table := update_route_table st.myId (storeViews r.2)
        version := route_version_inc st.version }
    else { st with store := r.2 }
  if p.need_reply then
    { st1 with
      lastSend :=
        fast_reply_adjust st1.lastSend p.myself.peer_id st1.version p.version
          now }
  else st1

/-- `BasicRoute::handle_route_packet`.  `decoded` is the result of
`decode_from_bytes::<SyncPeer>` (`none` = decode failure).  The source
`unwrap`s the decode and `assert_eq!`s the sender id — both panic;
panics are modelled as `Except.error ()`. -/
def handle_route_packet (st : EngineState) (src_peer_id : Nat)
    (decoded : Option SyncPeer) (now : Int) : Except Unit EngineState :=
  match decoded with
  | none => Except.error ()
  | some p =>
      if p.myself.peer_id = src_peer_id then
        Except.ok (handle_route_ok st p now)
      else Except.error ()

/-- Result of one tunnel send, as classified by the match in
`sync_peer_periodically` (`Ok`, `PeerNoConnectionError`, other error). -/
inductive SendResult where
  | ok : SendResult
  | noConn : SendResult
  | otherErr : SendResult
deriving DecidableEq, Repr

/-- One advertisement handed to `send_sync_peer_request`. -/
structure SendRec where
  dest : Nat
  version : Nat
  peer_version : Option Nat
  need_reply : Bool
deriving DecidableEq, Repr

/-- Per-peer body of the send loop in `sync_peer_periodically`: the skip
test, the new `last_send_time_map` entry and (when not skipped) the sent
advertisement's control fields.  `res` gives the outcome of the tunnel
send; the source only logs it, so every arm leaves the accumulator the
same. -/
def sync_peer_step (version : Nat) (store : List (Nat × SyncPeerFromRemote))
    (lastSend : Nat → Option (Nat × Option Nat × Int)) (now : Int)
    (res : Nat → SendResult)
    (acc : List SendRec × (Nat → Option (Nat × Option Nat × Int)))
    (peer : Nat) : List SendRec × (Nat → Option (Nat × Option Nat × Int)) :=
  let last := (lastSend peer).getD (0, none, now - 3600)
  let my_version_peer_saved :=
    (alookup store peer).bind (fun v => v.packet.peer_version)
  let peer_have_latest_version := my_version_peer_saved = some version
  if peer_have_latest_version ∧ max (now - last.2.2) 0 < 60 then
    (acc.1, fset acc.2 peer (some last))
  else
    let peer_version_we_saved :=
      (alookup store peer).map (fun v => v.packet.version)
    let acc' :=
      (acc.1 ++
          [⟨peer, version, peer_version_we_saved,
              ¬peer_have_latest_version⟩],
        fset acc.2 peer (some (version, peer_version_we_saved, now)))
    match res peer with
    | SendResult.ok => acc'
    | SendResult.noConn => acc'
    | SendResult.otherErr => acc'

/-- The send loop of `sync_peer_periodically` over the connected-peer
list: builds the fresh `last_send_time_map` (wholesale replacement, so
departed peers are dropped) and the list of advertisements sent.  The
route table, store and version are untouched by this phase. -/
def sync_peer_pass (st : EngineState) (now : Int) (peers : List Nat)
    (res : Nat → SendResult) : EngineState × List SendRec :=
  let r := peers.foldl (sync_peer_step st.version st.store st.lastSend now res)
    ([], fun _ => none)
  ({ st with lastSend := r.2 }, r.1)

/-- Modelled from the spec (§4.4 the claim C2 reference wording): the
reference `update` — insert when absent, replace only on strictly lower
cost, keep the earlier entry on ties.  As written in the claim it has no
6-hop removal. -/
def claim_update (gw : Nat) (cost : Nat) (attr : SyncPeerInfo)
    (m : Nat → Option SyncPeerInfo) : Nat → Option SyncPeerInfo :=
  let d := attr.peer_id
  match m d with
  | none => fset m d (some (clone_for_route_table gw cost attr))
  | some e =>
      if cost < e.cost then fset m d (some (clone_for_route_table gw cost attr))
      else m

/-- Modelled from the spec (claim C2 wording): reference rebuild — for
each view, first `update(cost = 1, attr = view.myself)`, then each
neighbor `n ≠ my_id` at `update(cost = n.cost + 1, attr = n)` (u32
addition), next hop = the sender. -/
def claim_rebuild (my_id : Nat) (views : List SyncPeer) :
    Nat → Option SyncPeerInfo :=
  views.foldl
    (fun m v =>
      let gw := v.myself.peer_id
      let m1 := claim_update gw 1 v.myself m
      v.neighbors.foldl
        (fun m n =>
          if n.peer_id = my_id then m
          else claim_update gw ((n.cost + 1) % U32) n m) m1)
    (fun _ => none)

/-- The reference `update` amended to match the source: after the
insert/replace/keep step, the destination's entry is removed when the
entry now installed has cost exceeding 6. -/
def amended_update (gw : Nat) (cost : Nat) (attr : SyncPeerInfo)
    (m : Nat → Option SyncPeerInfo) : Nat → Option SyncPeerInfo :=
  let d := attr.peer_id
  let m1 := claim_update gw cost attr m
  match m1 d with
  | some e => if e.cost > 6 then fset m1 d none else m1
  | none => m1

/-- The reference rebuild amended to match the source: per view the
neighbor updates run first and `update(cost = 1, attr = view.myself)`
runs last, and each update applies the 6-hop removal. -/
def amended_rebuild (my_id : Nat) (views : List SyncPeer) :
    Nat → Option SyncPeerInfo :=
  views.foldl
    (fun m v =>
      let gw := v.myself.peer_id
      let m1 := v.neighbors.foldl
        (fun m n =>
          if n.peer_id = my_id then m
          else amended_update gw ((n.cost + 1) % U32) n m) m
      amended_update gw 1 v.myself m1)
    (fun _ => none)

/-- Attribute record with the given id, cost and ipv4 and no cidrs. -/
def mkInfo (pid : Nat) (cost : Nat) (ip : Option Nat) : SyncPeerInfo :=
  ⟨pid, cost, ip, [], none, 0⟩

/-- A fresh engine (peer id 0, empty store, empty table, version 0). -/
def egState0 : EngineState :=
  ⟨0, [], RouteTable.empty, 0, fun _ => none⟩

/-- Advertisement whose body names sender 2 (used with tunnel sender 1). -/
def egBadAdv : SyncPeer := ⟨mkInfo 2 0 none, [], 0, none, false⟩

/-- View from sender 1 advertising neighbor 2 at cost 6 (derived cost 7). -/
def egV1 : List SyncPeer :=
  [⟨mkInfo 1 0 none, [mkInfo 2 6 none], 0, none, false⟩]

/-- View from sender 1 that lists itself as a neighbor at cost 0 with a
different ipv4, exposing the processing order at an equal-cost tie. -/
def egV2 : List SyncPeer :=
  [⟨mkInfo 1 0 (some 10), [mkInfo 1 0 (some 20)], 0, none, false⟩]

/-- View advertising a neighbor at cost `u32::MAX`; the derived cost
`u32::MAX + 1` wraps to 0. -/
def egV3 : List SyncPeer :=
  [⟨mkInfo 1 0 none, [mkInfo 2 4294967295 none], 0, none, false⟩]

/-- View whose neighbor 2 is advertised at cost 0, deriving a cost-1
entry whose next hop is the sender, not the destination. -/
def egV4 : List SyncPeer :=
  [⟨mkInfo 1 0 none, [mkInfo 2 0 none], 0, none, false⟩]

/-- View whose neighbor 3 (cost 6, ipv4 200) is pruned by the 6-hop
ceiling after its address index was written. -/
def egV10 : List SyncPeer :=
  [⟨mkInfo 1 0 (some 100), [mkInfo 3 6 (some 200)], 0, none, false⟩]

/-- Advertisement from sender 1 claiming neighbor 3 at cost 1. -/
def egAdvA : SyncPeer := ⟨mkInfo 1 0 none, [mkInfo 3 1 none], 0, none, false⟩

/-- Advertisement from sender 2 claiming neighbor 3 at cost 1. -/
def egAdvB : SyncPeer := ⟨mkInfo 2 0 none, [mkInfo 3 1 none], 0, none, false⟩

/-- Ingress of `egAdvA` then `egAdvB` into a fresh engine. -/
def egAB : EngineState :=
  handle_route_ok (handle_route_ok egState0 egAdvA 0) egAdvB 0

/-- Ingress of `egAdvB` then `egAdvA` into a fresh engine. -/
def egBA : EngineState :=
  handle_route_ok (handle_route_ok egState0 egAdvB 0) egAdvA 0

/-- C3: on a malformed advertisement — body naming a sender other than
the tunnel-level sender, or an undecodable body — `handle_route_packet`
panics (`assert_eq` / `unwrap`), modelled as `Except.error`, instead of
warn-logging and dropping the packet as the spec requires.  The
Remote-View Store is not altered (the panic precedes every write). -/
theorem rip_c3_malformed_panics :
    handle_route_packet egState0 1 (some egBadAdv) 0 = Except.error () ∧
      handle_route_packet egState0 1 none 0 = Except.error () :=
  ⟨rfl, rfl⟩

/-- The version counter after `n` increments from the initial 0:
`fetch_add` wraps, so the value is `n` modulo `2^32`. -/
theorem version_iterate_eq (n : Nat) : route_version_inc^[n] 0 = n % U32 := by
  induction n with
  | zero => rfl
  | succ k ih =>
      rw [Function.iterate_succ_apply', ih]
      show (k % U32 + 1) % U32 = (k + 1) % U32
      simp only [U32]
      omega

/-- C7 counterexample: `RouteVersion::inc` is a wrapping `u32`
`fetch_add`, so after `2^32` increments `get` reads 0 — strictly below
the value read after the first increment.  The claim's unbounded
monotonicity is false. -/
theorem rip_c7_cx :
    route_version_inc^[1] 0 = 1 ∧ route_version_inc^[U32] 0 = 0 ∧
      ¬route_version_inc^[U32] 0 ≥ route_version_inc^[1] 0 := by
  rw [version_iterate_eq, version_iterate_eq, Nat.mod_self]
  have h1 : (1 : Nat) % U32 = 1 := by norm_num [U32]
  rw [h1]
  exact ⟨rfl, rfl, by omega⟩

/-- C7 amended: as long as fewer than `2^32` increments have occurred —
operationally always, per the spec's §4.4 remark — the version read
after `n` increments is at least the one read after `m ≤ n`. -/
theorem rip_c7_monotone (m n : Nat) (hmn : m ≤ n) (hn : n < U32) :
    route_version_inc^[m] 0 ≤ route_version_inc^[n] 0 := by
  rw [version_iterate_eq, version_iterate_eq,
    Nat.mod_eq_of_lt (lt_of_le_of_lt hmn hn), Nat.mod_eq_of_lt hn]
  exact hmn

theorem rip_c7_monotone_witness :
    route_version_inc^[2] 0 ≤ route_version_inc^[5] 0 :=
  rip_c7_monotone 2 5 (by omega) (by norm_num [U32])

/-- C1 counterexample: a neighbor advertised at cost `u32::MAX` (which
is ≥ 6, so the claim demands absence) derives cost `u32::MAX + 1`, which
wraps to 0; the destination is retained with cost 0, outside `[1, 6]`. -/
theorem rip_c1_cx :
    6 ≤ 4294967295 ∧
      ((update_route_table 0 egV3).route_info 2).map
          (fun e => e.cost) = some 0 := by
  constructor
  · omega
  · decide

/-- C2 counterexample, both discrepancies with the claim's reference
definition: (a) the reference keeps a cost-7 destination that the source
removes via the 6-hop ceiling; (b) at an equal-cost tie the reference
(myself processed first) and the source (neighbors processed first)
install different attributes. -/
theorem rip_c2_cx :
    ((update_route_table 0 egV1).route_info 2 = none ∧
        claim_rebuild 0 egV1 2 ≠ none) ∧
      (update_route_table 0 egV2).route_info 1 ≠ claim_rebuild 0 egV2 1 := by
  refine ⟨⟨?_, ?_⟩, ?_⟩ <;> decide

/-- C5 counterexample: advertisements from distinct senders 1 and 2 both
claiming destination 3 at equal derived cost tie in the rebuild;
first-writer-wins makes the installed next hop depend on the processing
order, so the two orders do not yield byte-identical state. -/
theorem rip_c5_cx :
    handle_route_packet egState0 1 (some egAdvA) 0 =
        Except.ok (handle_route_ok egState0 egAdvA 0) ∧
      handle_route_packet (handle_route_ok egState0 egAdvA 0) 2
          (some egAdvB) 0 = Except.ok egAB ∧
      handle_route_packet egState0 2 (some egAdvB) 0 =
        Except.ok (handle_route_ok egState0 egAdvB 0) ∧
      handle_route_packet (handle_route_ok egState0 egAdvB 0) 1
          (some egAdvA) 0 = Except.ok egBA ∧
      (egAB.table.route_info 3).map (fun e => e.peer_id) = some 1 ∧
      (egBA.table.route_info 3).map (fun e => e.peer_id) = some 2 := by
  exact ⟨rfl, rfl, rfl, rfl, by decide, by decide⟩

/-- C9 counterexample: the advertiser records the new
`last_send_time_map` entry before the send, and a failed send
(`PeerNoConnectionError` here) does not roll it back — the map after the
failed send differs from the map before it. -/
theorem rip_c9_cx :
    (sync_peer_pass egState0 3600 [5] (fun _ => SendResult.noConn)).1.lastSend
        5 = some (0, none, 3600) ∧
      egState0.lastSend 5 = none := by
  exact ⟨by decide, rfl⟩

/-- The material content of a view: the fields `update_route_table`
reads (`myself` and `neighbors`). -/
def viewKey (p : SyncPeer) : SyncPeerInfo × List SyncPeerInfo :=
  (p.myself, p.neighbors)

/-- One table write performed by the rebuild: destination
`info.peer_id` is offered cost `cost` via next hop `gw`. -/
structure RouteOp where
  gw : Nat
  cost : Nat
  info : SyncPeerInfo
deriving DecidableEq, Repr

/-- `rt_update` as a function of a packaged operation. -/
def applyOp (rt : RouteTable) (op : RouteOp) : RouteTable :=
  rt_update op.gw rt op.cost op.info

/-- The write sequence `update_route_table_with_req` performs for a view
with the given material content: the filtered neighbors first, the
sender (cost 1) last. -/
def opsOfKey (my_id : Nat) (k : SyncPeerInfo × List SyncPeerInfo) :
    List RouteOp :=
  (k.2.filter (fun n => n.peer_id != my_id)).map
      (fun n => ⟨k.1.peer_id, (n.cost + 1) % U32, n⟩)
    ++ [⟨k.1.peer_id, 1, k.1⟩]

/-- The write sequence of one view. -/
def opsOfPacket (my_id : Nat) (p : SyncPeer) : List RouteOp :=
  opsOfKey my_id (viewKey p)

/-- The write sequence of a whole rebuild, in processing order. -/
def opsOfViews (my_id : Nat) (views : List SyncPeer) : List RouteOp :=
  (views.map (opsOfPacket my_id)).flatten

theorem req_eq_foldl (my_id : Nat) (p : SyncPeer) (rt : RouteTable) :
    update_route_table_with_req my_id p rt =
      (opsOfPacket my_id p).foldl applyOp rt := by
  have h : ∀ (ns : List SyncPeerInfo) (rt : RouteTable),
      ns.foldl
          (fun rt n =>
            if n.peer_id = my_id then rt
            else rt_update p.myself.peer_id rt ((n.cost + 1) % U32) n) rt =
        ((ns.filter (fun n => n.peer_id != my_id)).map
            (fun n =>
              (⟨p.myself.peer_id, (n.cost + 1) % U32, n⟩ : RouteOp))).foldl
          applyOp rt := by
    intro ns
    induction ns with
    | nil => intro rt; rfl
    | cons n ns ih =>
        intro rt
        by_cases hn : n.peer_id = my_id
        · simp [hn, ih]
        · simp [hn, ih, applyOp]
  unfold update_route_table_with_req opsOfPacket opsOfKey viewKey
  rw [List.foldl_append, ← h]
  rfl

theorem rebuild_eq_foldl (my_id : Nat) (views : List SyncPeer) :
    update_route_table my_id views =
      (opsOfViews my_id views).foldl applyOp RouteTable.empty := by
  have h : ∀ (vs : List SyncPeer) (rt : RouteTable),
      vs.foldl (fun rt v => update_route_table_with_req my_id v rt) rt =
        ((vs.map (opsOfPacket my_id)).flatten).foldl applyOp rt := by
    intro vs
    induction vs with
    | nil => intro rt; rfl
    | cons v vs ih =>
        intro rt
        simp only [List.map_cons, List.flatten_cons, List.foldl_append,
          List.foldl_cons]
        rw [← req_eq_foldl, ih]
  exact h views RouteTable.empty

/-- The effect of one rebuild write on the `route_info` entry of a fixed
destination `d`. -/
def stepD (d : Nat) (s : Option SyncPeerInfo) (op : RouteOp) :
    Option SyncPeerInfo :=
  if op.info.peer_id = d then
    let newVal : SyncPeerInfo :=
      match s with
      | none => clone_for_route_table op.gw op.cost op.info
      | some info =>
          if info.cost > op.cost then clone_for_route_table op.gw op.cost op.info
          else info
    if newVal.cost > 6 then none else some newVal
  else s

theorem applyOp_route_info (d : Nat) (rt : RouteTable) (op : RouteOp) :
    (applyOp rt op).route_info d = stepD d (rt.route_info d) op := by
  unfold applyOp rt_update stepD
  cases hip : op.info.ipv4_addr <;>
    cases hcur : rt.route_info op.info.peer_id <;>
      by_cases hd : op.info.peer_id = d <;>
        simp_all [fset] <;> split_ifs <;> simp_all [fset] <;>
          exact fun h => absurd h.symm hd

theorem foldl_route_info (d : Nat) (ops : List RouteOp) :
    ∀ rt : RouteTable,
      (ops.foldl applyOp rt).route_info d =
        ops.foldl (stepD d) (rt.route_info d) := by
  induction ops with
  | nil => intro rt; rfl
  | cons op ops ih =>
      intro rt
      rw [List.foldl_cons, List.foldl_cons, ih, applyOp_route_info]

/-- Fold step selecting the first operation of strictly minimal cost
among those targeting destination `d`. -/
def minStep (d : Nat) (acc : Option RouteOp) (op : RouteOp) :
    Option RouteOp :=
  if op.info.peer_id = d then
    match acc with
    | none => some op
    | some b => if op.cost < b.cost then some op else acc
  else acc

/-- The earliest minimal-cost operation targeting `d`. -/
def firstMinOp (d : Nat) (ops : List RouteOp) : Option RouteOp :=
  ops.foldl (minStep d) none

/-- The table entry induced by a (possible) winning operation: installed
unless its cost exceeds the 6-hop ceiling. -/
def selOf : Option RouteOp → Option SyncPeerInfo
  | none => none
  | some m =>
      if m.cost ≤ 6 then some (clone_for_route_table m.gw m.cost m.info)
      else none

theorem selOf_none : selOf none = none := rfl

theorem selOf_some (m : RouteOp) :
    selOf (some m) =
      if m.cost ≤ 6 then some (clone_for_route_table m.gw m.cost m.info)
      else none := rfl

@[simp] theorem clone_cost (gw c : Nat) (i : SyncPeerInfo) :
    (clone_for_route_table gw c i).cost = c := rfl

theorem stepD_selOf (d : Nat) (ops : List RouteOp) :
    ∀ fm : Option RouteOp,
      (ops.foldl (stepD d) (selOf fm)) = selOf (ops.foldl (minStep d) fm) := by
  induction ops with
  | nil => intro fm; rfl
  | cons op ops ih =>
      intro fm
      rw [List.foldl_cons, List.foldl_cons, ← ih]
      congr 1
      by_cases hd : op.info.peer_id = d
      · cases fm with
        | none =>
            by_cases h6 : op.cost ≤ 6 <;>
              · simp [stepD, minStep, selOf, hd, h6]
                try omega
        | some b =>
            by_cases hb6 : b.cost ≤ 6 <;>
              by_cases hcmp : op.cost < b.cost <;>
                by_cases h6 : op.cost ≤ 6 <;>
                  · simp [stepD, minStep, selOf, hd, hb6, hcmp, h6]
                    try omega
                    try simp_all
                    try omega
      · simp [stepD, minStep, selOf, hd]

/-- The per-destination characterization of the rebuild: the installed
entry for `d` is the earliest minimal-cost write for `d`, kept only when
that cost is within the 6-hop ceiling. -/
theorem route_info_eq_selOf (my_id : Nat) (views : List SyncPeer) (d : Nat) :
    (update_route_table my_id views).route_info d =
      selOf (firstMinOp d (opsOfViews my_id views)) := by
  rw [rebuild_eq_foldl, foldl_route_info]
  have h : (RouteTable.empty.route_info d) = selOf none := rfl
  rw [h, stepD_selOf]
  rfl

theorem minStep_none_eq (d : Nat) (op : RouteOp) :
    minStep d none op = if op.info.peer_id = d then some op else none := by
  unfold minStep
  by_cases hd : op.info.peer_id = d <;> simp [hd]

theorem minStep_some_eq (d : Nat) (b op : RouteOp) :
    minStep d (some b) op =
      if op.info.peer_id = d then
        (if op.cost < b.cost then some op else some b)
      else some b := by
  unfold minStep
  by_cases hd : op.info.peer_id = d <;> simp [hd]

theorem minStep_foldl_mem (d : Nat) (ops : List RouteOp) :
    ∀ (acc : Option RouteOp) (m : RouteOp),
      ops.foldl (minStep d) acc = some m →
      (m ∈ ops ∧ m.info.peer_id = d) ∨ acc = some m := by
  induction ops with
  | nil => intro acc m h; exact Or.inr h
  | cons op ops ih =>
      intro acc m h
      rw [List.foldl_cons] at h
      rcases ih _ _ h with hm | hacc
      · exact Or.inl ⟨List.mem_cons_of_mem _ hm.1, hm.2⟩
      · by_cases hd : op.info.peer_id = d
        · cases acc with
          | none =>
              rw [minStep_none_eq, if_pos hd] at hacc
              cases hacc
              exact Or.inl ⟨List.mem_cons_self _ _, hd⟩
          | some b =>
              rw [minStep_some_eq, if_pos hd] at hacc
              by_cases hc : op.cost < b.cost
              · rw [if_pos hc] at hacc
                cases hacc
                exact Or.inl ⟨List.mem_cons_self _ _, hd⟩
              · rw [if_neg hc] at hacc
                exact Or.inr hacc
        · cases acc with
          | none => rw [minStep_none_eq, if_neg hd] at hacc; cases hacc
          | some b =>
              rw [minStep_some_eq, if_neg hd] at hacc
              exact Or.inr hacc

theorem minStep_acc_le (d : Nat) (b op : RouteOp) :
    ∃ c, minStep d (some b) op = some c ∧ c.cost ≤ b.cost ∧
      (op.info.peer_id = d → c.cost ≤ op.cost) := by
  rw [minStep_some_eq]
  by_cases hd : op.info.peer_id = d
  · rw [if_pos hd]
    by_cases hc : op.cost < b.cost
    · exact ⟨op, by rw [if_pos hc], le_of_lt hc, fun _ => le_refl _⟩
    · exact ⟨b, by rw [if_neg hc], le_refl _, fun _ => le_of_not_lt hc⟩
  · rw [if_neg hd]
    exact ⟨b, rfl, le_refl _, fun h => absurd h hd⟩

theorem minStep_foldl_min (d : Nat) (ops : List RouteOp) :
    ∀ (acc : Option RouteOp) (m : RouteOp),
      ops.foldl (minStep d) acc = some m →
      (∀ b, acc = some b → m.cost ≤ b.cost) ∧
        ∀ op ∈ ops, op.info.peer_id = d → m.cost ≤ op.cost := by
  induction ops with
  | nil =>
      intro acc m h
      simp only [List.foldl_nil] at h
      subst h
      exact ⟨fun b hb => by cases hb; exact le_refl _,
        fun op hop => absurd hop (List.not_mem_nil _)⟩
  | cons op ops ih =>
      intro acc m h
      rw [List.foldl_cons] at h
      obtain ⟨hprev, hrest⟩ := ih _ _ h
      constructor
      · intro b hb
        subst hb
        obtain ⟨c, hc, hcb, _⟩ := minStep_acc_le d b op
        exact le_trans (hprev c hc) hcb
      · intro o ho hod
        rcases List.mem_cons.mp ho with rfl | ho'
        · cases hacc : acc with
          | none =>
              subst hacc
              have hstep : minStep d none o = some o := by
                rw [minStep_none_eq, if_pos hod]
              exact hprev o hstep
          | some b =>
              subst hacc
              obtain ⟨c, hc, _, hco⟩ := minStep_acc_le d b o
              exact le_trans (hprev c hc) (hco hod)
        · exact hrest o ho' hod

theorem minStep_foldl_none (d : Nat) (ops : List RouteOp) :
    ∀ acc : Option RouteOp,
      ops.foldl (minStep d) acc = none ↔
        acc = none ∧ ∀ op ∈ ops, op.info.peer_id ≠ d := by
  induction ops with
  | nil => intro acc; simp
  | cons op ops ih =>
      intro acc
      rw [List.foldl_cons, ih]
      constructor
      · rintro ⟨hstep, hrest⟩
        cases acc with
        | some b =>
            exfalso
            by_cases hd : op.info.peer_id = d
            · rw [minStep_some_eq, if_pos hd] at hstep
              by_cases hc : op.cost < b.cost
              · rw [if_pos hc] at hstep; cases hstep
              · rw [if_neg hc] at hstep; cases hstep
            · rw [minStep_some_eq, if_neg hd] at hstep; cases hstep
        | none =>
            by_cases hd : op.info.peer_id = d
            · rw [minStep_none_eq, if_pos hd] at hstep; cases hstep
            · refine ⟨rfl, fun o ho => ?_⟩
              rcases List.mem_cons.mp ho with rfl | ho'
              · exact hd
              · exact hrest o ho'
      · rintro ⟨hacc, hall⟩
        have hd : op.info.peer_id ≠ d := hall op (List.mem_cons_self _ _)
        subst hacc
        exact ⟨by rw [minStep_none_eq, if_neg hd],
          fun o ho => hall o (List.mem_cons_of_mem _ ho)⟩

theorem firstMinOp_mem (d : Nat) (ops : List RouteOp) (m : RouteOp)
    (h : firstMinOp d ops = some m) : m ∈ ops ∧ m.info.peer_id = d := by
  rcases minStep_foldl_mem d ops none m h with hm | hacc
  · exact hm
  · cases hacc

theorem firstMinOp_min (d : Nat) (ops : List RouteOp) (m : RouteOp)
    (h : firstMinOp d ops = some m) :
    ∀ op ∈ ops, op.info.peer_id = d → m.cost ≤ op.cost :=
  (minStep_foldl_min d ops none m h).2

theorem opsOfViews_mem (my_id : Nat) (views : List SyncPeer) (op : RouteOp)
    (h : op ∈ opsOfViews my_id views) :
    ∃ v ∈ views,
      op = ⟨v.myself.peer_id, 1, v.myself⟩ ∨
        ∃ n ∈ v.neighbors, n.peer_id ≠ my_id ∧
          op = ⟨v.myself.peer_id, (n.cost + 1) % U32, n⟩ := by
  unfold opsOfViews at h
  obtain ⟨l, hl, hop⟩ := List.mem_flatten.mp h
  obtain ⟨v, hv, rfl⟩ := List.mem_map.mp hl
  refine ⟨v, hv, ?_⟩
  unfold opsOfPacket opsOfKey viewKey at hop
  rcases List.mem_append.mp hop with hleft | hright
  · obtain ⟨n, hn, rfl⟩ := List.mem_map.mp hleft
    obtain ⟨hn2, hnp⟩ := List.mem_filter.mp hn
    exact Or.inr ⟨n, hn2, by simpa using hnp, rfl⟩
  · rcases List.mem_singleton.mp hright with rfl
    exact Or.inl rfl

theorem myselfOp_mem (my_id : Nat) (views : List SyncPeer) (v : SyncPeer)
    (hv : v ∈ views) :
    (⟨v.myself.peer_id, 1, v.myself⟩ : RouteOp) ∈ opsOfViews my_id views := by
  unfold opsOfViews
  refine List.mem_flatten.mpr ⟨opsOfPacket my_id v, List.mem_map_of_mem _ hv, ?_⟩
  unfold opsOfPacket opsOfKey viewKey
  exact List.mem_append.mpr (Or.inr (List.mem_singleton.mpr rfl))

theorem neighborOp_mem (my_id : Nat) (views : List SyncPeer) (v : SyncPeer)
    (n : SyncPeerInfo) (hv : v ∈ views) (hn : n ∈ v.neighbors)
    (hne : n.peer_id ≠ my_id) :
    (⟨v.myself.peer_id, (n.cost + 1) % U32, n⟩ : RouteOp) ∈
      opsOfViews my_id views := by
  unfold opsOfViews
  refine List.mem_flatten.mpr ⟨opsOfPacket my_id v, List.mem_map_of_mem _ hv, ?_⟩
  unfold opsOfPacket opsOfKey viewKey
  refine List.mem_append.mpr (Or.inl ?_)
  refine List.mem_map.mpr ⟨n, List.mem_filter.mpr ⟨hn, by simpa using hne⟩, rfl⟩

theorem ops_cost_pos (my_id : Nat) (views : List SyncPeer) (op : RouteOp)
    (hc : ∀ v ∈ views, ∀ n ∈ v.neighbors, n.cost + 1 < U32)
    (h : op ∈ opsOfViews my_id views) : 1 ≤ op.cost := by
  obtain ⟨v, hv, hop | ⟨n, hn, _, hop⟩⟩ := opsOfViews_mem my_id views op h
  · rw [hop]
  · rw [hop]
    show 1 ≤ (n.cost + 1) % U32
    rw [Nat.mod_eq_of_lt (hc v hv n hn)]
    omega

/-- C1 amended: assuming no `u32` overflow in the derived costs (every
advertised neighbor cost is below `2^32 - 1`), every entry installed by
a rebuild has cost in `[1, 6]`; a destination whose minimal derived cost
is within the ceiling is present at exactly that cost; a destination all
of whose derived costs exceed 6 is absent. -/
theorem rip_c1_cost_bounds (my_id : Nat) (views : List SyncPeer)
    (hc : ∀ v ∈ views, ∀ n ∈ v.neighbors, n.cost + 1 < U32) :
    (∀ d e, (update_route_table my_id views).route_info d = some e →
        1 ≤ e.cost ∧ e.cost ≤ 6) ∧
      (∀ d m, firstMinOp d (opsOfViews my_id views) = some m → m.cost ≤ 6 →
          ∃ e, (update_route_table my_id views).route_info d = some e ∧
            e.cost = m.cost) ∧
      ∀ d m, firstMinOp d (opsOfViews my_id views) = some m → 6 < m.cost →
          (update_route_table my_id views).route_info d = none := by
  refine ⟨?_, ?_, ?_⟩
  · intro d e he
    rw [route_info_eq_selOf] at he
    cases hm : firstMinOp d (opsOfViews my_id views) with
    | none => rw [hm] at he; cases he
    | some m =>
        rw [hm, selOf_some] at he
        by_cases h6 : m.cost ≤ 6
        · rw [if_pos h6] at he
          cases he
          have hmem := (firstMinOp_mem d _ m hm).1
          exact ⟨ops_cost_pos my_id views m hc hmem, by simpa using h6⟩
        · rw [if_neg h6] at he; cases he
  · intro d m hm h6
    rw [route_info_eq_selOf, hm, selOf_some, if_pos h6]
    exact ⟨_, rfl, rfl⟩
  · intro d m hm h6
    rw [route_info_eq_selOf, hm, selOf_some, if_neg (by omega)]

/-- Store for the C1 witness: neighbors at advertised costs 5 (derived
6, retained) and 6 (derived 7, pruned). -/
def egVW : List SyncPeer :=
  [⟨mkInfo 1 0 none, [mkInfo 2 5 none, mkInfo 3 6 none], 0, none, false⟩]

theorem rip_c1_cost_bounds_witness :
    1 ≤ (clone_for_route_table 1 6 (mkInfo 2 5 none)).cost ∧
      (clone_for_route_table 1 6 (mkInfo 2 5 none)).cost ≤ 6 :=
  (rip_c1_cost_bounds 0 egVW (by decide)).1 2 _ (by decide)

/-- C8 counterexample: a store holding one view from sender 1 that
advertises neighbor 2 at cost 0 yields a cost-1 entry for destination 2
whose next hop is 1, not 2 — so `next_hop(d) = d` fails while
`cost(d) = 1` holds. -/
theorem rip_c8_cx :
    ((update_route_table 0 egV4).route_info 2).map (fun e => e.cost) =
        some 1 ∧
      get_next_hop (update_route_table 0 egV4) 2 = some 1 ∧ (1 : Nat) ≠ 2 := by
  refine ⟨by decide, by decide, by omega⟩

/-- C8 amended: provided every advertised neighbor cost is at least 1
and does not overflow (`cost + 1 < 2^32`) — which holds for every
advertisement the protocol itself produces — an installed destination
has `next_hop(d) = d` exactly when `cost(d) = 1`. -/
theorem rip_c8_next_hop_iff (my_id : Nat) (views : List SyncPeer)
    (hc : ∀ v ∈ views, ∀ n ∈ v.neighbors, 1 ≤ n.cost ∧ n.cost + 1 < U32)
    (d : Nat) (e : SyncPeerInfo)
    (he : (update_route_table my_id views).route_info d = some e) :
    get_next_hop (update_route_table my_id views) d = some d ↔ e.cost = 1 := by
  have hnh : get_next_hop (update_route_table my_id views) d =
      some e.peer_id := by
    unfold get_next_hop
    rw [he, Option.map_some']
  rw [hnh]
  have he' := he
  rw [route_info_eq_selOf] at he'
  cases hm : firstMinOp d (opsOfViews my_id views) with
  | none => rw [hm, selOf_none] at he'; cases he'
  | some m =>
      rw [hm, selOf_some] at he'
      by_cases h6 : m.cost ≤ 6
      · rw [if_pos h6] at he'
        cases he'
        obtain ⟨hmem, hdest⟩ := firstMinOp_mem d _ m hm
        obtain ⟨v, hv, hop | ⟨n, hn, hne, hop⟩⟩ :=
          opsOfViews_mem my_id views m hmem
        · -- winning op is a myself-op: cost 1, next hop = destination
          subst hop
          constructor
          · intro _
            rfl
          · intro _
            exact congrArg some hdest
        · -- winning op is a neighbor-op: cost ≥ 2 and next hop ≠ d
          subst hop
          have hcost : ((n.cost + 1) % U32) = n.cost + 1 :=
            Nat.mod_eq_of_lt (hc v hv n hn).2
          have hge : 1 ≤ n.cost := (hc v hv n hn).1
          constructor
          · intro hgw
            exfalso
            -- v's own myself-op would beat the winning cost
            have hself : (⟨v.myself.peer_id, 1, v.myself⟩ : RouteOp) ∈
              opsOfViews my_id views := myselfOp_mem my_id views v hv
            have hgw' : v.myself.peer_id = d := Option.some_inj.mp hgw
            have hmin : (n.cost + 1) % U32 ≤ 1 :=
              firstMinOp_min d _ _ hm _ hself hgw'
            rw [hcost] at hmin
            omega
          · intro hc1
            exfalso
            have hc1' : (n.cost + 1) % U32 = 1 := hc1
            rw [hcost] at hc1'
            omega
      · rw [if_neg h6] at he'; cases he'

/-- Store for the C8 witness: a single direct neighbor advertising a
cost-1 neighbor of its own. -/
def egVW2 : List SyncPeer :=
  [⟨mkInfo 1 0 none, [mkInfo 2 1 none], 0, none, false⟩]

theorem rip_c8_next_hop_iff_witness :
    get_next_hop (update_route_table 0 egVW2) 2 = some 2 ↔
      (clone_for_route_table 1 2 (mkInfo 2 1 none)).cost = 1 :=
  rip_c8_next_hop_iff 0 egVW2 (by decide) 2 _ (by decide)

theorem rt_update_route_info (gw : Nat) (cost : Nat) (pi : SyncPeerInfo)
    (rt : RouteTable) :
    (rt_update gw rt cost pi).route_info =
      amended_update gw cost pi rt.route_info := by
  funext d
  have hap : (rt_update gw rt cost pi).route_info d =
      stepD d (rt.route_info d) ⟨gw, cost, pi⟩ :=
    applyOp_route_info d rt ⟨gw, cost, pi⟩
  rw [hap]
  by_cases hd : pi.peer_id = d
  · subst hd
    cases hcur : rt.route_info pi.peer_id <;>
      · simp only [stepD, amended_update, claim_update, hcur, ite_apply, fset]
        split_ifs <;> (try simp_all [fset, ite_apply]) <;> omega
  · have hd' : ¬d = pi.peer_id := fun h => hd h.symm
    cases hcur : rt.route_info pi.peer_id <;>
      · simp only [stepD, amended_update, claim_update, hcur, ite_apply, fset]
        split_ifs <;> (try simp_all [fset, ite_apply]) <;> omega

theorem req_route_info (my_id : Nat) (v : SyncPeer) (rt : RouteTable) :
    (update_route_table_with_req my_id v rt).route_info =
      amended_update v.myself.peer_id 1 v.myself
        (v.neighbors.foldl
          (fun m n =>
            if n.peer_id = my_id then m
            else amended_update v.myself.peer_id ((n.cost + 1) % U32) n m)
          rt.route_info) := by
  have h : ∀ (ns : List SyncPeerInfo) (rt : RouteTable),
      (ns.foldl
          (fun rt n =>
            if n.peer_id = my_id then rt
            else rt_update v.myself.peer_id rt ((n.cost + 1) % U32) n)
          rt).route_info =
        ns.foldl
          (fun m n =>
            if n.peer_id = my_id then m
            else amended_update v.myself.peer_id ((n.cost + 1) % U32) n m)
          rt.route_info := by
    intro ns
    induction ns with
    | nil => intro rt; rfl
    | cons n ns ih =>
        intro rt
        by_cases hn : n.peer_id = my_id
        · simp only [List.foldl_cons, if_pos hn, ih]
        · simp only [List.foldl_cons, if_neg hn, ih, rt_update_route_info]
  unfold update_route_table_with_req
  rw [rt_update_route_info, h]

/-- C2 amended: the source's rebuild equals the reference definition
once the reference is amended to (a) process the neighbor updates first
and `update(cost = 1, attr = view.myself)` last, and (b) after each
update remove the destination's entry when the installed cost exceeds
the 6-hop ceiling. -/
theorem rip_c2_rebuild_refines (my_id : Nat) (views : List SyncPeer) :
    (update_route_table my_id views).route_info = amended_rebuild my_id views := by
  induction views using List.reverseRecOn with
  | nil => rfl
  | append_singleton vs v ih =>
      have hsrc : update_route_table my_id (vs ++ [v]) =
          update_route_table_with_req my_id v (update_route_table my_id vs) := by
        unfold update_route_table
        rw [List.foldl_append, List.foldl_cons, List.foldl_nil]
      have ham : amended_rebuild my_id (vs ++ [v]) =
          amended_update v.myself.peer_id 1 v.myself
            (v.neighbors.foldl
              (fun m n =>
                if n.peer_id = my_id then m
                else amended_update v.myself.peer_id ((n.cost + 1) % U32) n m)
              (amended_rebuild my_id vs)) := by
        unfold amended_rebuild
        rw [List.foldl_append, List.foldl_cons, List.foldl_nil]
      rw [hsrc, ham, req_route_info, ih]

theorem rt_update_ipv4 (gw : Nat) (rt : RouteTable) (cost : Nat)
    (pi : SyncPeerInfo) :
    (rt_update gw rt cost pi).ipv4_peer_id_map =
      match pi.ipv4_addr with
      | some ip => fset rt.ipv4_peer_id_map ip (some pi.peer_id)
      | none => rt.ipv4_peer_id_map := by
  unfold rt_update
  cases hip : pi.ipv4_addr <;> simp [hip] <;> split_ifs <;> rfl

theorem rt_update_cidr (gw : Nat) (rt : RouteTable) (cost : Nat)
    (pi : SyncPeerInfo) :
    (rt_update gw rt cost pi).cidr_peer_id_map =
      pi.proxy_cidrs.foldl (fun l c => cset l c pi.peer_id)
        rt.cidr_peer_id_map := by
  unfold rt_update
  cases hip : pi.ipv4_addr <;> simp [hip] <;> split_ifs <;> rfl

theorem lookup_map_keypres (f : IpCidr × Nat → IpCidr × Nat)
    (hf : ∀ e, (f e).1 = e.1) (l : List (IpCidr × Nat)) (c : IpCidr) :
    (List.lookup c (l.map f)).isSome = (List.lookup c l).isSome := by
  induction l with
  | nil => rfl
  | cons e l ih =>
      simp only [List.map_cons, List.lookup]
      rw [hf e]
      cases hbe : (c == e.1) <;> simp [hbe, ih]

theorem lookup_map_replace_isSome (c c0 : IpCidr) (v : Nat)
    (l : List (IpCidr × Nat)) :
    (List.lookup c (l.map (fun e => if e.1 = c0 then (c0, v) else e))).isSome =
      (List.lookup c l).isSome := by
  apply lookup_map_keypres
  intro e
  split_ifs with h
  · exact h.symm
  · rfl

theorem lookup_append_single_self (c : IpCidr) (v : Nat)
    (l : List (IpCidr × Nat)) :
    (List.lookup c (l ++ [(c, v)])).isSome := by
  induction l with
  | nil => simp [List.lookup]
  | cons e l ih =>
      simp only [List.cons_append, List.lookup]
      cases hbe : (c == e.1) <;> simp [ih]

theorem lookup_append_single_isSome (c c0 : IpCidr) (v : Nat)
    (l : List (IpCidr × Nat)) (h : (List.lookup c l).isSome) :
    (List.lookup c (l ++ [(c0, v)])).isSome := by
  induction l with
  | nil => cases h
  | cons e l ih =>
      simp only [List.cons_append, List.lookup]
      simp only [List.lookup] at h
      cases hbe : (c == e.1)
      · rw [hbe] at h
        simp only [hbe]
        exact ih h
      · simp [hbe]

theorem cset_lookup_mono (l : List (IpCidr × Nat)) (c0 c : IpCidr) (v : Nat)
    (h : (List.lookup c l).isSome) : (List.lookup c (cset l c0 v)).isSome := by
  unfold cset
  split_ifs
  · rw [lookup_map_replace_isSome]
    exact h
  · exact lookup_append_single_isSome c c0 v l h

theorem cset_lookup_self (l : List (IpCidr × Nat)) (c : IpCidr) (v : Nat) :
    (List.lookup c (cset l c v)).isSome := by
  unfold cset
  split_ifs with hp
  · rw [lookup_map_replace_isSome]
    exact hp
  · exact lookup_append_single_self c v l

theorem cset_foldl_mono (cs : List IpCidr) (v : Nat) (c : IpCidr) :
    ∀ l : List (IpCidr × Nat), (List.lookup c l).isSome →
      (List.lookup c (cs.foldl (fun l c' => cset l c' v) l)).isSome := by
  induction cs with
  | nil => intro l h; exact h
  | cons c0 cs ih =>
      intro l h
      exact ih _ (cset_lookup_mono l c0 c v h)

theorem cset_foldl_write (cs : List IpCidr) (v : Nat) (c : IpCidr)
    (hc : c ∈ cs) :
    ∀ l : List (IpCidr × Nat),
      (List.lookup c (cs.foldl (fun l c' => cset l c' v) l)).isSome := by
  induction cs with
  | nil => cases hc
  | cons c0 cs ih =>
      intro l
      rcases List.mem_cons.mp hc with rfl | hc'
      · exact cset_foldl_mono cs v c _ (cset_lookup_self l c v)
      · exact ih hc' _

theorem applyOp_ipv4_mono (rt : RouteTable) (op : RouteOp) (ip : Nat)
    (h : (rt.ipv4_peer_id_map ip).isSome) :
    ((applyOp rt op).ipv4_peer_id_map ip).isSome := by
  show ((rt_update op.gw rt op.cost op.info).ipv4_peer_id_map ip).isSome
  rw [rt_update_ipv4]
  cases hip : op.info.ipv4_addr with
  | none => exact h
  | some ip' =>
      unfold fset
      by_cases he : ip = ip' <;> simp [he, h]

theorem applyOp_cidr_mono (rt : RouteTable) (op : RouteOp) (c : IpCidr)
    (h : (List.lookup c rt.cidr_peer_id_map).isSome) :
    (List.lookup c (applyOp rt op).cidr_peer_id_map).isSome := by
  show (List.lookup c
    (rt_update op.gw rt op.cost op.info).cidr_peer_id_map).isSome
  rw [rt_update_cidr]
  exact cset_foldl_mono _ _ _ _ h

theorem foldl_ipv4_mono (ops : List RouteOp) (ip : Nat) :
    ∀ rt : RouteTable, (rt.ipv4_peer_id_map ip).isSome →
      ((ops.foldl applyOp rt).ipv4_peer_id_map ip).isSome := by
  induction ops with
  | nil => intro rt h; exact h
  | cons op ops ih =>
      intro rt h
      exact ih _ (applyOp_ipv4_mono rt op ip h)

theorem foldl_cidr_mono (ops : List RouteOp) (c : IpCidr) :
    ∀ rt : RouteTable, (List.lookup c rt.cidr_peer_id_map).isSome →
      (List.lookup c (ops.foldl applyOp rt).cidr_peer_id_map).isSome := by
  induction ops with
  | nil => intro rt h; exact h
  | cons op ops ih =>
      intro rt h
      exact ih _ (applyOp_cidr_mono rt op c h)

theorem ops_write_ipv4 (ops : List RouteOp) (op : RouteOp) (ip : Nat)
    (hmem : op ∈ ops) (hip : op.info.ipv4_addr = some ip)
    (rt : RouteTable) :
    ((ops.foldl applyOp rt).ipv4_peer_id_map ip).isSome := by
  obtain ⟨s, t, rfl⟩ := List.append_of_mem hmem
  rw [List.foldl_append, List.foldl_cons]
  apply foldl_ipv4_mono
  show ((rt_update op.gw _ op.cost op.info).ipv4_peer_id_map ip).isSome
  rw [rt_update_ipv4, hip]
  simp [fset]

theorem ops_write_cidr (ops : List RouteOp) (op : RouteOp) (c : IpCidr)
    (hmem : op ∈ ops) (hc : c ∈ op.info.proxy_cidrs)
    (rt : RouteTable) :
    (List.lookup c (ops.foldl applyOp rt).cidr_peer_id_map).isSome := by
  obtain ⟨s, t, rfl⟩ := List.append_of_mem hmem
  rw [List.foldl_append, List.foldl_cons]
  apply foldl_cidr_mono
  show (List.lookup c
    (rt_update op.gw _ op.cost op.info).cidr_peer_id_map).isSome
  rw [rt_update_cidr]
  exact cset_foldl_write _ _ _ hc _

/-- C10: the rebuild writes the ipv4 and cidr indices for every neighbor
it processes — including one whose route entry the 6-hop ceiling removes
— so after a rebuild `get_peer_id_by_ipv4` can answer `some peer` for a
destination for which `get_next_hop` answers `none` (shown at the
concrete store `egV10`, whose neighbor 3 arrives at derived cost 7 with
ipv4 200). -/
theorem rip_c10_index_residue (my_id : Nat) (views : List SyncPeer)
    (v : SyncPeer) (hv : v ∈ views) (n : SyncPeerInfo) (hn : n ∈ v.neighbors)
    (hne : n.peer_id ≠ my_id) :
    (∀ ip, n.ipv4_addr = some ip →
        (update_route_table my_id views).ipv4_peer_id_map ip ≠ none) ∧
      (∀ c, c ∈ n.proxy_cidrs →
          (List.lookup c
            (update_route_table my_id views).cidr_peer_id_map) ≠ none) ∧
      get_peer_id_by_ipv4 (update_route_table 0 egV10) 200 = some 3 ∧
      get_next_hop (update_route_table 0 egV10) 3 = none := by
  have hop := neighborOp_mem my_id views v n hv hn hne
  refine ⟨?_, ?_, by decide, by decide⟩
  · intro ip hip
    rw [rebuild_eq_foldl]
    rw [← Option.isSome_iff_ne_none]
    exact ops_write_ipv4 _ _ ip hop hip _
  · intro c hc
    rw [rebuild_eq_foldl]
    rw [← Option.isSome_iff_ne_none]
    exact ops_write_cidr _ _ c hop hc _

theorem rip_c10_index_residue_witness :
    (update_route_table 0 egV10).ipv4_peer_id_map 200 ≠ none ∧
      get_peer_id_by_ipv4 (update_route_table 0 egV10) 200 = some 3 ∧
      get_next_hop (update_route_table 0 egV10) 3 = none :=
  let T := rip_c10_index_residue 0 egV10
    ⟨mkInfo 1 0 (some 100), [mkInfo 3 6 (some 200)], 0, none, false⟩
    (by decide) (mkInfo 3 6 (some 200)) (by decide) (by decide)
  ⟨T.1 200 rfl, T.2.2.1, T.2.2.2⟩

theorem replKV_pos {α : Type} (k : Nat) (v : α) (e : Nat × α)
    (h : e.1 = k) : replKV k v e = (k, v) := by
  unfold replKV
  rw [if_pos h]

theorem replKV_neg {α : Type} (k : Nat) (v : α) (e : Nat × α)
    (h : ¬e.1 = k) : replKV k v e = e := by
  unfold replKV
  rw [if_neg h]

theorem alookup_map_repl_self {α : Type} (l : List (Nat × α)) (k : Nat)
    (v : α) (h : akeymem l k = true) :
    alookup (l.map (replKV k v)) k = some v := by
  induction l with
  | nil => cases h
  | cons e l ih =>
      by_cases he : e.1 = k
      · rw [List.map_cons, replKV_pos k v e he]
        unfold alookup
        rw [if_pos rfl]
      · rw [List.map_cons, replKV_neg k v e he]
        unfold alookup
        rw [if_neg (fun hk => he hk.symm)]
        apply ih
        unfold akeymem alookup at h
        rw [if_neg (fun hk => he hk.symm)] at h
        exact h

theorem alookup_map_repl_ne {α : Type} (l : List (Nat × α)) (k x : Nat)
    (v : α) (hx : x ≠ k) :
    alookup (l.map (replKV k v)) x = alookup l x := by
  induction l with
  | nil => rfl
  | cons e l ih =>
      by_cases he : e.1 = k
      · rw [List.map_cons, replKV_pos k v e he]
        unfold alookup
        rw [if_neg hx, if_neg (fun hxe => hx (hxe.trans he))]
        exact ih
      · rw [List.map_cons, replKV_neg k v e he]
        unfold alookup
        by_cases hxe : x = e.1
        · rw [if_pos hxe, if_pos hxe]
        · rw [if_neg hxe, if_neg hxe]
          exact ih

theorem alookup_append_self {α : Type} (l : List (Nat × α)) (k : Nat)
    (v : α) (h : alookup l k = none) :
    alookup (l ++ [(k, v)]) k = some v := by
  induction l with
  | nil => simp [alookup]
  | cons e l ih =>
      unfold alookup at h
      by_cases he : k = e.1
      · rw [if_pos he] at h; cases h
      · rw [if_neg he] at h
        rw [List.cons_append]
        unfold alookup
        rw [if_neg he]
        exact ih h

theorem alookup_append_ne {α : Type} (l : List (Nat × α)) (k x : Nat)
    (v : α) (hx : x ≠ k) :
    alookup (l ++ [(k, v)]) x = alookup l x := by
  induction l with
  | nil =>
      rw [List.nil_append]
      unfold alookup
      rw [if_neg hx]
      rfl
  | cons e l ih =>
      rw [List.cons_append]
      unfold alookup
      by_cases hxe : x = e.1
      · rw [if_pos hxe, if_pos hxe]
      · rw [if_neg hxe, if_neg hxe]
        exact ih

theorem alookup_aset_self {α : Type} (l : List (Nat × α)) (k : Nat) (v : α) :
    alookup (aset l k v) k = some v := by
  unfold aset
  split_ifs with hk
  · exact alookup_map_repl_self l k v hk
  · apply alookup_append_self
    unfold akeymem at hk
    cases h : alookup l k
    · rfl
    · rw [h] at hk
      cases hk rfl

theorem alookup_aset_ne {α : Type} (l : List (Nat × α)) (k x : Nat) (v : α)
    (hx : x ≠ k) : alookup (aset l k v) x = alookup l x := by
  unfold aset
  split_ifs with hk
  · exact alookup_map_repl_ne l k x v hx
  · exact alookup_append_ne l k x v hx

theorem store_upsert_lookup_ne (s : List (Nat × SyncPeerFromRemote))
    (key : Nat) (p : SyncPeer) (t : Int) (x : Nat) (hx : x ≠ key) :
    alookup (store_upsert s key p t).2 x = alookup s x := by
  unfold store_upsert
  cases h : alookup s key with
  | none => exact alookup_append_ne s key x _ hx
  | some v =>
      dsimp only
      split_ifs <;> exact alookup_aset_ne s key x _ hx

theorem store_upsert_material (s : List (Nat × SyncPeerFromRemote))
    (key : Nat) (p : SyncPeer) (t : Int) :
    ∃ w, alookup (store_upsert s key p t).2 key = some w ∧
      w.packet.myself = p.myself ∧ w.packet.neighbors = p.neighbors := by
  unfold store_upsert
  cases h : alookup s key with
  | none => exact ⟨⟨p, t⟩, alookup_append_self s key _ h, rfl, rfl⟩
  | some v =>
      dsimp only
      split_ifs with hm
      · exact ⟨_, alookup_aset_self s key _, hm.1, hm.2⟩
      · exact ⟨⟨p, t⟩, alookup_aset_self s key _, rfl, rfl⟩

theorem store_upsert_flag_false (s : List (Nat × SyncPeerFromRemote))
    (key : Nat) (p : SyncPeer) (t : Int) (w : SyncPeerFromRemote)
    (hw : alookup s key = some w)
    (hm : w.packet.myself = p.myself ∧ w.packet.neighbors = p.neighbors) :
    (store_upsert s key p t).1 = false := by
  unfold store_upsert
  rw [hw]
  dsimp only
  rw [if_pos hm]

theorem hro_store (st : EngineState) (p : SyncPeer) (t : Int) :
    (handle_route_ok st p t).store =
      (store_upsert st.store p.myself.peer_id p t).2 := by
  unfold handle_route_ok
  cases hr : (store_upsert st.store p.myself.peer_id p t).1 <;>
    cases hnr : p.need_reply <;> simp [hr, hnr]

theorem hro_myId (st : EngineState) (p : SyncPeer) (t : Int) :
    (handle_route_ok st p t).myId = st.myId := by
  unfold handle_route_ok
  cases hr : (store_upsert st.store p.myself.peer_id p t).1 <;>
    cases hnr : p.need_reply <;> simp [hr, hnr]

theorem hro_table (st : EngineState) (p : SyncPeer) (t : Int) :
    (handle_route_ok st p t).table =
      if (store_upsert st.store p.myself.peer_id p t).1 then
        update_route_table st.myId
          (storeViews (store_upsert st.store p.myself.peer_id p t).2)
      else st.table := by
  unfold handle_route_ok
  cases hr : (store_upsert st.store p.myself.peer_id p t).1 <;>
    cases hnr : p.need_reply <;> simp [hr, hnr]

theorem hro_version (st : EngineState) (p : SyncPeer) (t : Int) :
    (handle_route_ok st p t).version =
      if (store_upsert st.store p.myself.peer_id p t).1 then
        route_version_inc st.version
      else st.version := by
  unfold handle_route_ok
  cases hr : (store_upsert st.store p.myself.peer_id p t).1 <;>
    cases hnr : p.need_reply <;> simp [hr, hnr]

/-- C4: Ingress is idempotent — if an advertisement is applied a second
time right after a successful first apply, the second apply succeeds,
leaves the Route Table exactly as after the first apply, and does not
increment the Version counter. -/
theorem rip_c4_idempotent (st : EngineState) (src : Nat) (p : SyncPeer)
    (t1 t2 : Int) (st1 : EngineState)
    (h : handle_route_packet st src (some p) t1 = Except.ok st1) :
    ∃ st2, handle_route_packet st1 src (some p) t2 = Except.ok st2 ∧
      st2.table = st1.table ∧ st2.version = st1.version := by
  unfold handle_route_packet at h
  dsimp only at h
  split_ifs at h with hid
  · have hst1 : st1 = handle_route_ok st p t1 := (Except.ok.inj h).symm
    subst hst1
    obtain ⟨w, hw, hm1, hm2⟩ :=
      store_upsert_material st.store p.myself.peer_id p t1
    have hw' : alookup (handle_route_ok st p t1).store p.myself.peer_id =
        some w := by
      rw [hro_store]
      exact hw
    have hflag : (store_upsert (handle_route_ok st p t1).store
        p.myself.peer_id p t2).1 = false :=
      store_upsert_flag_false _ _ _ _ w hw' ⟨hm1, hm2⟩
    unfold handle_route_packet
    dsimp only
    rw [if_pos hid]
    refine ⟨_, rfl, ?_, ?_⟩
    · rw [hro_table, hflag]
      rw [if_neg (by simp)]
    · rw [hro_version, hflag]
      rw [if_neg (by simp)]

theorem rip_c4_idempotent_witness :
    ∃ st2,
      handle_route_packet (handle_route_ok egState0 egAdvA 0) 1 (some egAdvA)
          5 = Except.ok st2 ∧
        st2.table = (handle_route_ok egState0 egAdvA 0).table ∧
        st2.version = (handle_route_ok egState0 egAdvA 0).version :=
  rip_c4_idempotent egState0 1 egAdvA 0 5 (handle_route_ok egState0 egAdvA 0)
    rfl

/-- The per-peer outcome of one advertiser pass: `none` when the send is
skipped, otherwise the control fields of the sent advertisement. -/
def sendDecision (version : Nat) (store : List (Nat × SyncPeerFromRemote))
    (lastSend : Nat → Option (Nat × Option Nat × Int)) (now : Int)
    (peer : Nat) : Option SendRec :=
  let last := (lastSend peer).getD (0, none, now - 3600)
  let my_version_peer_saved :=
    (alookup store peer).bind (fun v => v.packet.peer_version)
  let peer_have_latest_version := my_version_peer_saved = some version
  if peer_have_latest_version ∧ max (now - last.2.2) 0 < 60 then none
  else
    some ⟨peer, version, (alookup store peer).map (fun v => v.packet.version),
      ¬peer_have_latest_version⟩

theorem sync_peer_step_sends (version : Nat)
    (store : List (Nat × SyncPeerFromRemote))
    (lastSend : Nat → Option (Nat × Option Nat × Int)) (now : Int)
    (res : Nat → SendResult)
    (acc : List SendRec × (Nat → Option (Nat × Option Nat × Int)))
    (peer : Nat) :
    (sync_peer_step version store lastSend now res acc peer).1 =
      acc.1 ++ (sendDecision version store lastSend now peer).toList := by
  unfold sync_peer_step sendDecision
  dsimp only
  split_ifs with hc
  · simp
  · cases res peer <;> simp

theorem sync_pass_sends (version : Nat)
    (store : List (Nat × SyncPeerFromRemote))
    (lastSend : Nat → Option (Nat × Option Nat × Int)) (now : Int)
    (res : Nat → SendResult) (peers : List Nat) :
    ∀ acc,
      (peers.foldl (sync_peer_step version store lastSend now res) acc).1 =
        acc.1 ++ peers.filterMap (sendDecision version store lastSend now) := by
  induction peers with
  | nil => intro acc; simp
  | cons p peers ih =>
      intro acc
      rw [List.foldl_cons, ih]
      rw [sync_peer_step_sends]
      cases hdec : sendDecision version store lastSend now p <;>
        simp [hdec]

theorem sendDecision_some (version : Nat)
    (store : List (Nat × SyncPeerFromRemote))
    (lastSend : Nat → Option (Nat × Option Nat × Int)) (now : Int)
    (peer : Nat) (r : SendRec)
    (h : sendDecision version store lastSend now peer = some r) :
    r.dest = peer ∧
      (r.need_reply = true ↔
        ¬(alookup store peer).bind (fun v => v.packet.peer_version) =
          some version) := by
  unfold sendDecision at h
  dsimp only at h
  split_ifs at h with hc
  cases h
  refine ⟨rfl, ?_⟩
  simp


theorem sync_pass_sends_eq (st : EngineState) (now : Int) (peers : List Nat)
    (res : Nat → SendResult) :
    (sync_peer_pass st now peers res).2 =
      peers.filterMap (sendDecision st.version st.store st.lastSend now) := by
  unfold sync_peer_pass
  dsimp only
  rw [sync_pass_sends]
  simp

/-- C6: per directly-connected peer, the advertiser pass skips the send
exactly when the peer's last echoed `peer_version` equals the current
version and the recorded last send is under 60 seconds old (a missing
record counts as 3600 seconds old); and every advertisement actually
sent carries `need_reply` = "the peer does not have the latest
version". -/
theorem rip_c6_skip_iff (st : EngineState) (now : Int) (peers : List Nat)
    (res : Nat → SendResult) (p : Nat) (hp : p ∈ peers) :
    ((∀ r ∈ (sync_peer_pass st now peers res).2, r.dest ≠ p) ↔
        ((alookup st.store p).bind (fun v => v.packet.peer_version) =
            some st.version ∧
          max (now - ((st.lastSend p).getD (0, none, now - 3600)).2.2) 0 <
            60)) ∧
      ∀ r ∈ (sync_peer_pass st now peers res).2, r.dest = p →
        (r.need_reply = true ↔
          ¬(alookup st.store p).bind (fun v => v.packet.peer_version) =
            some st.version) := by
  rw [sync_pass_sends_eq]
  constructor
  · constructor
    · intro hall
      by_contra hskip
      have hdec : sendDecision st.version st.store st.lastSend now p =
          some ⟨p, st.version,
            (alookup st.store p).map (fun v => v.packet.version),
            ¬((alookup st.store p).bind (fun v => v.packet.peer_version) =
              some st.version)⟩ := by
        unfold sendDecision
        dsimp only
        rw [if_neg hskip]
      have hmem : (⟨p, st.version,
          (alookup st.store p).map (fun v => v.packet.version),
          ¬((alookup st.store p).bind (fun v => v.packet.peer_version) =
            some st.version)⟩ : SendRec) ∈
          peers.filterMap (sendDecision st.version st.store st.lastSend now) :=
        List.mem_filterMap.mpr ⟨p, hp, hdec⟩
      exact hall _ hmem rfl
    · intro hskip r hr hrd
      obtain ⟨q, _, hq⟩ := List.mem_filterMap.mp hr
      have hdq := (sendDecision_some _ _ _ _ _ _ hq).1
      rw [hrd] at hdq
      subst hdq
      unfold sendDecision at hq
      dsimp only at hq
      rw [if_pos hskip] at hq
      cases hq
  · intro r hr hrd
    obtain ⟨q, _, hq⟩ := List.mem_filterMap.mp hr
    obtain ⟨hdq, hnr⟩ := sendDecision_some _ _ _ _ _ _ hq
    rw [hrd] at hdq
    subst hdq
    exact hnr

/-- Engine state used in the C6 witness: the store holds peer 5's last
advertisement (its version 3, echoing our version 1, while our current
version is 0). -/
def egState6 : EngineState :=
  ⟨0, [(5, ⟨⟨mkInfo 5 0 none, [], 3, some 1, false⟩, 0⟩)],
    RouteTable.empty, 0, fun _ => none⟩

theorem rip_c6_skip_iff_witness :
    ((∀ r ∈ (sync_peer_pass egState6 100 [5]
            (fun _ => SendResult.ok)).2, r.dest ≠ 5) ↔
        ((alookup egState6.store 5).bind (fun v => v.packet.peer_version) =
            some egState6.version ∧
          max (100 - ((egState6.lastSend 5).getD
              (0, none, 100 - 3600)).2.2) 0 < 60)) ∧
      ∀ r ∈ (sync_peer_pass egState6 100 [5] (fun _ => SendResult.ok)).2,
        r.dest = 5 →
          (r.need_reply = true ↔
            ¬(alookup egState6.store 5).bind (fun v => v.packet.peer_version) =
              some egState6.version) :=
  rip_c6_skip_iff egState6 100 [5] (fun _ => SendResult.ok) 5
    (List.mem_singleton.mpr rfl)

/-- C9 amended: the advertiser's send loop changes no engine state other
than `last_send_time_map`, and its outcome is independent of the send
results (success, `PeerNoConnectionError`, or any other error) — but the
new `last_send_time_map` entry for an attempted peer is recorded before
the send and kept even when the send fails (the claim's "last_send_map
unchanged" part is refuted by `rip_c9_cx`). -/
theorem rip_c9_send_failure (st : EngineState) (now : Int)
    (peers : List Nat) (res res' : Nat → SendResult) :
    (sync_peer_pass st now peers res).1.table = st.table ∧
      (sync_peer_pass st now peers res).1.store = st.store ∧
      (sync_peer_pass st now peers res).1.version = st.version ∧
      sync_peer_pass st now peers res = sync_peer_pass st now peers res' := by
  refine ⟨rfl, rfl, rfl, ?_⟩
  unfold sync_peer_pass
  have h : ∀ acc,
      peers.foldl (sync_peer_step st.version st.store st.lastSend now res)
          acc =
        peers.foldl (sync_peer_step st.version st.store st.lastSend now res')
          acc := by
    induction peers with
    | nil => intro acc; rfl
    | cons p peers ih =>
        intro acc
        rw [List.foldl_cons, List.foldl_cons]
        have hstep : sync_peer_step st.version st.store st.lastSend now res
            acc p =
            sync_peer_step st.version st.store st.lastSend now res' acc p := by
          unfold sync_peer_step
          dsimp only
          split_ifs
          · rfl
          · cases res p <;> cases res' p <;> rfl
        rw [hstep, ih]
  rw [h]

/-- Minimum of two optional costs (`none` = no candidate). -/
def optMin : Option Nat → Option Nat → Option Nat
  | none, b => b
  | some a, none => some a
  | some a, some b => some (min a b)

theorem optMin_none_right (a : Option Nat) : optMin a none = a := by
  cases a <;> rfl

theorem optMin_none_left (b : Option Nat) : optMin none b = b := rfl

theorem optMin_comm (a b : Option Nat) : optMin a b = optMin b a := by
  cases a <;> cases b <;> simp [optMin, Nat.min_comm]

theorem optMin_assoc (a b c : Option Nat) :
    optMin (optMin a b) c = optMin a (optMin b c) := by
  cases a <;> cases b <;> cases c <;> simp [optMin, Nat.min_assoc]

instance : RightCommutative optMin :=
  ⟨fun b a1 a2 => by
    rw [optMin_assoc, optMin_assoc, optMin_comm a1 a2]⟩

theorem minStep_cost (d : Nat) (acc : Option RouteOp) (op : RouteOp) :
    (minStep d acc op).map (fun m => m.cost) =
      if op.info.peer_id = d then
        optMin (acc.map (fun m => m.cost)) (some op.cost)
      else acc.map (fun m => m.cost) := by
  by_cases hd : op.info.peer_id = d
  · cases acc with
    | none => simp [minStep_none_eq, hd, optMin]
    | some b =>
        rw [minStep_some_eq, if_pos hd, if_pos hd]
        split_ifs with hc <;> simp [optMin] <;> omega
  · cases acc <;> simp [minStep_none_eq, minStep_some_eq, hd]

theorem minStep_foldl_cost (d : Nat) (ops : List RouteOp) :
    ∀ acc,
      (ops.foldl (minStep d) acc).map (fun m => m.cost) =
        optMin (acc.map (fun m => m.cost))
          ((firstMinOp d ops).map (fun m => m.cost)) := by
  induction ops with
  | nil =>
      intro acc
      rw [List.foldl_nil]
      show _ = optMin _ ((firstMinOp d []).map _)
      rw [show firstMinOp d [] = none from rfl]
      rw [Option.map_none', optMin_none_right]
  | cons op ops ih =>
      intro acc
      rw [List.foldl_cons, ih]
      unfold firstMinOp
      rw [List.foldl_cons, ih (minStep d none op), minStep_cost, minStep_cost]
      by_cases hd : op.info.peer_id = d
      · rw [if_pos hd, if_pos hd]
        rw [Option.map_none', optMin_none_left, optMin_assoc]
        rfl
      · rw [if_neg hd, if_neg hd]
        rw [Option.map_none', optMin_none_left]
        rfl

theorem firstMinOp_append_cost (d : Nat) (l1 l2 : List RouteOp) :
    (firstMinOp d (l1 ++ l2)).map (fun m => m.cost) =
      optMin ((firstMinOp d l1).map (fun m => m.cost))
        ((firstMinOp d l2).map (fun m => m.cost)) := by
  unfold firstMinOp
  rw [List.foldl_append]
  exact minStep_foldl_cost d l2 _

/-- The minimal derived cost one view contributes for destination `d`,
as a function of the view's material content. -/
def viewMinCost (my_id d : Nat) (k : SyncPeerInfo × List SyncPeerInfo) :
    Option Nat :=
  (firstMinOp d (opsOfKey my_id k)).map (fun m => m.cost)

theorem foldl_optMin_acc (l : List (Option Nat)) :
    ∀ a, l.foldl optMin a = optMin a (l.foldl optMin none) := by
  induction l with
  | nil => intro a; rw [List.foldl_nil, List.foldl_nil, optMin_none_right]
  | cons x l ih =>
      intro a
      rw [List.foldl_cons, ih, List.foldl_cons, ih (optMin none x),
        optMin_none_left, optMin_assoc]

theorem firstMinOp_views_cost (my_id d : Nat) (views : List SyncPeer) :
    (firstMinOp d (opsOfViews my_id views)).map (fun m => m.cost) =
      (views.map (fun v => viewMinCost my_id d (viewKey v))).foldl optMin
        none := by
  induction views with
  | nil => rfl
  | cons v vs ih =>
      have hops : opsOfViews my_id (v :: vs) =
          opsOfPacket my_id v ++ opsOfViews my_id vs := by
        unfold opsOfViews
        rw [List.map_cons, List.flatten_cons]
      rw [hops, firstMinOp_append_cost, ih, List.map_cons, List.foldl_cons]
      rw [foldl_optMin_acc _ (optMin none (viewMinCost my_id d (viewKey v))),
        optMin_none_left]
      rfl

/-- The per-destination cost in the rebuilt table depends only on the
multiset of material view contents (`myself`, `neighbors`): permuting
the store enumeration cannot change a destination's presence or cost. -/
theorem tcost_perm (my_id d : Nat) (views1 views2 : List SyncPeer)
    (hp : (views1.map viewKey).Perm (views2.map viewKey)) :
    ((update_route_table my_id views1).route_info d).map (fun e => e.cost) =
      ((update_route_table my_id views2).route_info d).map
        (fun e => e.cost) := by
  rw [route_info_eq_selOf, route_info_eq_selOf]
  have hsel : ∀ fm : Option RouteOp,
      (selOf fm).map (fun e => e.cost) =
        (fm.map (fun m => m.cost)).bind
          (fun c => if c ≤ 6 then some c else none) := by
    intro fm
    cases fm with
    | none => rfl
    | some m =>
        rw [selOf_some]
        split_ifs with h6 <;> simp [h6]
  rw [hsel, hsel]
  congr 1
  rw [firstMinOp_views_cost, firstMinOp_views_cost]
  have hmaps :
      (views1.map (fun v => viewMinCost my_id d (viewKey v))).Perm
        (views2.map (fun v => viewMinCost my_id d (viewKey v))) := by
    have h1 : views1.map (fun v => viewMinCost my_id d (viewKey v)) =
        (views1.map viewKey).map (viewMinCost my_id d) := by
      rw [List.map_map]
      rfl
    have h2 : views2.map (fun v => viewMinCost my_id d (viewKey v)) =
        (views2.map viewKey).map (viewMinCost my_id d) := by
      rw [List.map_map]
      rfl
    rw [h1, h2]
    exact hp.map _
  exact hmaps.foldl_eq none

/-- The value the store upsert records at the sender's key: on a
material hit only the version fields and timestamp are refreshed,
otherwise the new packet is stored. -/
def upVal (o : Option SyncPeerFromRemote) (p : SyncPeer) (t : Int) :
    SyncPeerFromRemote :=
  match o with
  | some v =>
      if v.packet.myself = p.myself ∧ v.packet.neighbors = p.neighbors then
        ⟨{ v.packet with version := p.version, peer_version := p.peer_version },
          t⟩
      else ⟨p, t⟩
  | none => ⟨p, t⟩

theorem aset_eq_map {α : Type} (l : List (Nat × α)) (k : Nat) (v : α)
    (h : akeymem l k = true) : aset l k v = l.map (replKV k v) := by
  unfold aset
  rw [if_pos h]

theorem aset_eq_append {α : Type} (l : List (Nat × α)) (k : Nat) (v : α)
    (h : akeymem l k = false) : aset l k v = l ++ [(k, v)] := by
  unfold aset
  rw [if_neg (by rw [h]; exact Bool.false_ne_true)]

theorem store_upsert_snd (s : List (Nat × SyncPeerFromRemote)) (key : Nat)
    (p : SyncPeer) (t : Int) :
    (store_upsert s key p t).2 =
      if akeymem s key then aset s key (upVal (alookup s key) p t)
      else s ++ [(key, upVal (alookup s key) p t)] := by
  unfold store_upsert
  cases h : alookup s key with
  | none =>
      dsimp only
      have hk : akeymem s key = false := by
        unfold akeymem
        rw [h]
        rfl
      rw [hk, if_neg Bool.false_ne_true]
      rfl
  | some v =>
      dsimp only
      have hk : akeymem s key = true := by
        unfold akeymem
        rw [h]
        rfl
      rw [hk, if_pos rfl]
      simp only [upVal]
      split_ifs with hm <;> rfl

theorem store_upsert_self_val (s : List (Nat × SyncPeerFromRemote))
    (key : Nat) (p : SyncPeer) (t : Int) :
    alookup (store_upsert s key p t).2 key =
      some (upVal (alookup s key) p t) := by
  rw [store_upsert_snd]
  split_ifs with hk
  · exact alookup_aset_self _ _ _
  · apply alookup_append_self
    unfold akeymem at hk
    cases h : alookup s key
    · rfl
    · rw [h] at hk
      cases hk rfl

theorem store_upsert_flag_congr (s s' : List (Nat × SyncPeerFromRemote))
    (key : Nat) (p : SyncPeer) (t t' : Int)
    (h : alookup s key = alookup s' key) :
    (store_upsert s key p t).1 = (store_upsert s' key p t').1 := by
  unfold store_upsert
  rw [h]
  cases alookup s' key <;> dsimp only <;>
    first
    | rfl
    | (split_ifs <;> rfl)

theorem replKV_fst {α : Type} (k : Nat) (v : α) (e : Nat × α) :
    (replKV k v e).1 = e.1 := by
  unfold replKV
  split_ifs with h
  · exact h.symm
  · rfl

theorem replKV_comm {α : Type} (kA kB : Nat) (vA vB : α)
    (hab : kA ≠ kB) (e : Nat × α) :
    replKV kB vB (replKV kA vA e) = replKV kA vA (replKV kB vB e) := by
  unfold replKV
  by_cases ha : e.1 = kA <;> by_cases hb : e.1 = kB
  · exact absurd (ha.symm.trans hb) hab
  · simp [ha, hb, hab, Ne.symm hab]
  · simp [ha, hb, hab, Ne.symm hab]
  · simp [ha, hb, hab, Ne.symm hab]

theorem akeymem_aset_ne {α : Type} (l : List (Nat × α)) (k x : Nat) (v : α)
    (hx : x ≠ k) : akeymem (aset l k v) x = akeymem l x := by
  unfold akeymem
  rw [alookup_aset_ne l k x v hx]

theorem akeymem_append_ne {α : Type} (l : List (Nat × α)) (k x : Nat)
    (v : α) (hx : x ≠ k) : akeymem (l ++ [(k, v)]) x = akeymem l x := by
  unfold akeymem
  rw [alookup_append_ne l k x v hx]

theorem aset_aset_comm {α : Type} (s : List (Nat × α)) (kA kB : Nat)
    (vA vB : α) (hab : kA ≠ kB) (hA : akeymem s kA = true)
    (hB : akeymem s kB = true) :
    aset (aset s kA vA) kB vB = aset (aset s kB vB) kA vA := by
  have hB' : akeymem (aset s kA vA) kB = true := by
    rw [akeymem_aset_ne s kA kB vA (fun h => hab h.symm)]
    exact hB
  have hA' : akeymem (aset s kB vB) kA = true := by
    rw [akeymem_aset_ne s kB kA vB hab]
    exact hA
  rw [aset_eq_map _ _ _ hB', aset_eq_map _ _ _ hA, aset_eq_map _ _ _ hA',
    aset_eq_map _ _ _ hB, List.map_map, List.map_map]
  apply List.map_congr_left
  intro e _
  exact replKV_comm kA kB vA vB hab e

theorem aset_append_comm {α : Type} (s : List (Nat × α)) (kA kB : Nat)
    (vA vB : α) (hab : kA ≠ kB) (hA : akeymem s kA = true)
    (hB : akeymem s kB = false) :
    aset s kA vA ++ [(kB, vB)] = aset (s ++ [(kB, vB)]) kA vA := by
  have hA' : akeymem (s ++ [(kB, vB)]) kA = true := by
    rw [akeymem_append_ne s kB kA vB hab]
    exact hA
  rw [aset_eq_map _ _ _ hA, aset_eq_map _ _ _ hA', List.map_append]
  congr 1
  show _ = [replKV kA vA (kB, vB)]
  rw [replKV_neg kA vA (kB, vB) (fun h => hab h.symm)]

theorem alookup_none_iff_keys {α : Type} (l : List (Nat × α)) (k : Nat) :
    alookup l k = none ↔ k ∉ l.map Prod.fst := by
  induction l with
  | nil => simp [alookup]
  | cons e l ih =>
      unfold alookup
      by_cases he : k = e.1
      · rw [if_pos he]
        simp [he]
      · rw [if_neg he]
        simp [he, ih]

theorem map_replKV_not_mem {α : Type} (l : List (Nat × α)) (k : Nat)
    (v : α) (h : k ∉ l.map Prod.fst) : l.map (replKV k v) = l := by
  induction l with
  | nil => rfl
  | cons e l ih =>
      rw [List.map_cons] at h ⊢
      rw [List.mem_cons] at h
      push_neg at h
      rw [replKV_neg k v e (fun he => h.1 he.symm), ih h.2]

theorem keys_aset {α : Type} (l : List (Nat × α)) (k : Nat) (v : α)
    (h : akeymem l k = true) :
    (aset l k v).map Prod.fst = l.map Prod.fst := by
  rw [aset_eq_map _ _ _ h, List.map_map]
  apply List.map_congr_left
  intro e _
  exact replKV_fst k v e

theorem store_upsert_keys_nodup (s : List (Nat × SyncPeerFromRemote))
    (key : Nat) (p : SyncPeer) (t : Int)
    (hnd : (s.map Prod.fst).Nodup) :
    (((store_upsert s key p t).2).map Prod.fst).Nodup := by
  rw [store_upsert_snd]
  split_ifs with hk
  · rw [keys_aset _ _ _ hk]
    exact hnd
  · rw [List.map_append]
    rw [List.nodup_append]
    refine ⟨hnd, List.nodup_singleton _, ?_⟩
    intro x hx hx'
    rw [List.map_singleton, List.mem_singleton] at hx'
    rw [hx'] at hx
    unfold akeymem at hk
    have hnone : alookup s key = none := by
      cases h : alookup s key
      · rfl
      · rw [h] at hk
        cases hk rfl
    exact (alookup_none_iff_keys s key).mp hnone hx

/-- The material contents of the store, in iteration order. -/
def storeVK (s : List (Nat × SyncPeerFromRemote)) :
    List (SyncPeerInfo × List SyncPeerInfo) :=
  (storeViews s).map viewKey

theorem storeVK_cons (e : Nat × SyncPeerFromRemote)
    (l : List (Nat × SyncPeerFromRemote)) :
    storeVK (e :: l) = viewKey e.2.packet :: storeVK l := rfl

theorem storeVK_aset_material (s : List (Nat × SyncPeerFromRemote))
    (key : Nat) (w : SyncPeerFromRemote) (v : SyncPeerFromRemote)
    (hnd : (s.map Prod.fst).Nodup) (hv : alookup s key = some v)
    (hkeq : viewKey w.packet = viewKey v.packet) :
    storeVK (aset s key w) = storeVK s := by
  induction s with
  | nil => cases hv
  | cons e l ih =>
      have hnd' := hnd
      rw [List.map_cons, List.nodup_cons] at hnd'
      by_cases he : key = e.1
      · have hv' : v = e.2 := by
          unfold alookup at hv
          rw [if_pos he] at hv
          exact (Option.some_inj.mp hv).symm
        have hmem : akeymem (e :: l) key = true := by
          unfold akeymem
          rw [hv]
          rfl
        rw [aset_eq_map _ _ _ hmem, List.map_cons,
          replKV_pos key w e he.symm]
        have hnl : key ∉ l.map Prod.fst := he ▸ hnd'.1
        rw [map_replKV_not_mem l key w hnl]
        rw [storeVK_cons, storeVK_cons, hkeq, hv']
      · have hvl : alookup l key = some v := by
          unfold alookup at hv
          rw [if_neg he] at hv
          exact hv
        have hmem_l : akeymem l key = true := by
          unfold akeymem
          rw [hvl]
          rfl
        have hmem : akeymem (e :: l) key = true := by
          unfold akeymem alookup
          rw [if_neg he]
          exact hmem_l
        rw [aset_eq_map _ _ _ hmem, List.map_cons,
          replKV_neg key w e (fun h => he h.symm)]
        rw [← aset_eq_map _ _ _ hmem_l]
        rw [storeVK_cons, storeVK_cons, ih hnd'.2 hvl]

theorem storeVK_upsert_not_updated (s : List (Nat × SyncPeerFromRemote))
    (key : Nat) (p : SyncPeer) (t : Int)
    (hnd : (s.map Prod.fst).Nodup)
    (hflag : (store_upsert s key p t).1 = false) :
    storeVK (store_upsert s key p t).2 = storeVK s := by
  unfold store_upsert at hflag ⊢
  cases hv : alookup s key with
  | none =>
      rw [hv] at hflag
      cases hflag
  | some v =>
      rw [hv] at hflag
      dsimp only at hflag ⊢
      split_ifs at hflag ⊢ with hm
      exact storeVK_aset_material s key _ v hnd hv rfl

theorem store_upsert_comm_perm (s : List (Nat × SyncPeerFromRemote))
    (kA kB : Nat) (a b : SyncPeer) (t : Int) (hab : kA ≠ kB) :
    ((store_upsert (store_upsert s kA a t).2 kB b t).2).Perm
      ((store_upsert (store_upsert s kB b t).2 kA a t).2) := by
  have hba : kB ≠ kA := fun h => hab h.symm
  have hlA : alookup (store_upsert s kB b t).2 kA = alookup s kA :=
    store_upsert_lookup_ne s kB b t kA hab
  have hlB : alookup (store_upsert s kA a t).2 kB = alookup s kB :=
    store_upsert_lookup_ne s kA a t kB hba
  have hkA : akeymem (store_upsert s kB b t).2 kA = akeymem s kA := by
    unfold akeymem
    rw [hlA]
  have hkB : akeymem (store_upsert s kA a t).2 kB = akeymem s kB := by
    unfold akeymem
    rw [hlB]
  cases hA : akeymem s kA <;> cases hB : akeymem s kB
  · -- both absent: append twice, swapped
    have h1 : (store_upsert s kA a t).2 =
        s ++ [(kA, upVal (alookup s kA) a t)] := by
      rw [store_upsert_snd, hA, if_neg Bool.false_ne_true]
    have h2 : (store_upsert s kB b t).2 =
        s ++ [(kB, upVal (alookup s kB) b t)] := by
      rw [store_upsert_snd, hB, if_neg Bool.false_ne_true]
    have h3 : (store_upsert (store_upsert s kA a t).2 kB b t).2 =
        (s ++ [(kA, upVal (alookup s kA) a t)]) ++
          [(kB, upVal (alookup s kB) b t)] := by
      rw [store_upsert_snd, hkB, hB, if_neg Bool.false_ne_true, hlB, h1]
    have h4 : (store_upsert (store_upsert s kB b t).2 kA a t).2 =
        (s ++ [(kB, upVal (alookup s kB) b t)]) ++
          [(kA, upVal (alookup s kA) a t)] := by
      rw [store_upsert_snd, hkA, hA, if_neg Bool.false_ne_true, hlA, h2]
    rw [h3, h4, List.append_assoc, List.append_assoc]
    exact List.Perm.append_left s (List.Perm.swap _ _ _)
  · -- A absent, B present
    have h1 : (store_upsert s kA a t).2 =
        s ++ [(kA, upVal (alookup s kA) a t)] := by
      rw [store_upsert_snd, hA, if_neg Bool.false_ne_true]
    have h2 : (store_upsert s kB b t).2 =
        aset s kB (upVal (alookup s kB) b t) := by
      rw [store_upsert_snd, hB, if_pos rfl]
    have h3 : (store_upsert (store_upsert s kA a t).2 kB b t).2 =
        aset (s ++ [(kA, upVal (alookup s kA) a t)]) kB
          (upVal (alookup s kB) b t) := by
      rw [store_upsert_snd, hkB, hB, if_pos rfl, hlB, h1]
    have h4 : (store_upsert (store_upsert s kB b t).2 kA a t).2 =
        aset s kB (upVal (alookup s kB) b t) ++
          [(kA, upVal (alookup s kA) a t)] := by
      rw [store_upsert_snd, hkA, hA, if_neg Bool.false_ne_true, hlA, h2]
    rw [h3, h4, aset_append_comm s kB kA _ _ hba hB hA]
  · -- A present, B absent
    have h1 : (store_upsert s kA a t).2 =
        aset s kA (upVal (alookup s kA) a t) := by
      rw [store_upsert_snd, hA, if_pos rfl]
    have h2 : (store_upsert s kB b t).2 =
        s ++ [(kB, upVal (alookup s kB) b t)] := by
      rw [store_upsert_snd, hB, if_neg Bool.false_ne_true]
    have h3 : (store_upsert (store_upsert s kA a t).2 kB b t).2 =
        aset s kA (upVal (alookup s kA) a t) ++
          [(kB, upVal (alookup s kB) b t)] := by
      rw [store_upsert_snd, hkB, hB, if_neg Bool.false_ne_true, hlB, h1]
    have h4 : (store_upsert (store_upsert s kB b t).2 kA a t).2 =
        aset (s ++ [(kB, upVal (alookup s kB) b t)]) kA
          (upVal (alookup s kA) a t) := by
      rw [store_upsert_snd, hkA, hA, if_pos rfl, hlA, h2]
    rw [h3, h4, aset_append_comm s kA kB _ _ hab hA hB]
  · -- both present: replacements commute
    have h1 : (store_upsert s kA a t).2 =
        aset s kA (upVal (alookup s kA) a t) := by
      rw [store_upsert_snd, hA, if_pos rfl]
    have h2 : (store_upsert s kB b t).2 =
        aset s kB (upVal (alookup s kB) b t) := by
      rw [store_upsert_snd, hB, if_pos rfl]
    have h3 : (store_upsert (store_upsert s kA a t).2 kB b t).2 =
        aset (aset s kA (upVal (alookup s kA) a t)) kB
          (upVal (alookup s kB) b t) := by
      rw [store_upsert_snd, hkB, hB, if_pos rfl, hlB, h1]
    have h4 : (store_upsert (store_upsert s kB b t).2 kA a t).2 =
        aset (aset s kB (upVal (alookup s kB) b t)) kA
          (upVal (alookup s kA) a t) := by
      rw [store_upsert_snd, hkA, hA, if_pos rfl, hlA, h2]
    rw [h3, h4, aset_aset_comm s kA kB _ _ hab hA hB]

theorem storeVK_eq_map (s : List (Nat × SyncPeerFromRemote)) :
    storeVK s = s.map (fun e => viewKey e.2.packet) := by
  unfold storeVK storeViews
  rw [List.map_map]
  rfl

theorem hrp_ok_inv (st : EngineState) (src : Nat) (p : SyncPeer) (t : Int)
    (st' : EngineState)
    (h : handle_route_packet st src (some p) t = Except.ok st') :
    p.myself.peer_id = src ∧ st' = handle_route_ok st p t := by
  unfold handle_route_packet at h
  dsimp only at h
  split_ifs at h with hid
  exact ⟨hid, (Except.ok.inj h).symm⟩

/-- C5 amended: for advertisements from distinct senders, Ingress
commutes on the Remote-View Store (pointwise-identical contents), on the
Version counter, and on the Route Table's destination set and per-
destination costs.  Full byte-identity does not hold: at equal-cost ties
the installed next hop follows first-writer-wins in store iteration
order (see the counterexample). -/
theorem rip_c5_commutes (st : EngineState) (a b : SyncPeer) (t : Int)
    (A B : Nat) (hA : a.myself.peer_id = A) (hB : b.myself.peer_id = B)
    (hab : A ≠ B) (hnd : (st.store.map Prod.fst).Nodup)
    (st1 st12 st2 st21 : EngineState)
    (h1 : handle_route_packet st A (some a) t = Except.ok st1)
    (h2 : handle_route_packet st1 B (some b) t = Except.ok st12)
    (h3 : handle_route_packet st B (some b) t = Except.ok st2)
    (h4 : handle_route_packet st2 A (some a) t = Except.ok st21) :
    (∀ k, alookup st12.store k = alookup st21.store k) ∧
      st12.version = st21.version ∧
      ∀ d, (st12.table.route_info d).map (fun e => e.cost) =
        (st21.table.route_info d).map (fun e => e.cost) := by
  subst hA
  subst hB
  have e1 := (hrp_ok_inv st _ a t st1 h1).2
  subst e1
  have e2 := (hrp_ok_inv _ _ b t st12 h2).2
  subst e2
  have e3 := (hrp_ok_inv st _ b t st2 h3).2
  subst e3
  have e4 := (hrp_ok_inv _ _ a t st21 h4).2
  subst e4
  have hba : b.myself.peer_id ≠ a.myself.peer_id := fun h => hab h.symm
  have hlA : alookup (store_upsert st.store b.myself.peer_id b t).2
      a.myself.peer_id = alookup st.store a.myself.peer_id :=
    store_upsert_lookup_ne st.store b.myself.peer_id b t a.myself.peer_id hab
  have hlB : alookup (store_upsert st.store a.myself.peer_id a t).2
      b.myself.peer_id = alookup st.store b.myself.peer_id :=
    store_upsert_lookup_ne st.store a.myself.peer_id a t b.myself.peer_id hba
  have fB : (store_upsert (store_upsert st.store a.myself.peer_id a t).2
      b.myself.peer_id b t).1 =
      (store_upsert st.store b.myself.peer_id b t).1 :=
    store_upsert_flag_congr _ _ _ _ _ _ hlB
  have fA : (store_upsert (store_upsert st.store b.myself.peer_id b t).2
      a.myself.peer_id a t).1 =
      (store_upsert st.store a.myself.peer_id a t).1 :=
    store_upsert_flag_congr _ _ _ _ _ _ hlA
  have hndA : (((store_upsert st.store a.myself.peer_id a t).2).map
      Prod.fst).Nodup := store_upsert_keys_nodup st.store _ a t hnd
  have hndB : (((store_upsert st.store b.myself.peer_id b t).2).map
      Prod.fst).Nodup := store_upsert_keys_nodup st.store _ b t hnd
  have hpk : (storeVK (store_upsert
        (store_upsert st.store a.myself.peer_id a t).2
        b.myself.peer_id b t).2).Perm
      (storeVK (store_upsert
        (store_upsert st.store b.myself.peer_id b t).2
        a.myself.peer_id a t).2) := by
    rw [storeVK_eq_map, storeVK_eq_map]
    exact (store_upsert_comm_perm st.store a.myself.peer_id b.myself.peer_id
      a b t hab).map _
  refine ⟨?_, ?_, ?_⟩
  · -- store contents agree pointwise
    intro k
    simp only [hro_store]
    by_cases hkA : k = a.myself.peer_id
    · subst hkA
      rw [store_upsert_lookup_ne _ _ _ _ _ hab, store_upsert_self_val,
        store_upsert_self_val, hlA]
    · by_cases hkB : k = b.myself.peer_id
      · subst hkB
        rw [store_upsert_lookup_ne _ _ _ _ _ hba, store_upsert_self_val,
          store_upsert_self_val, hlB]
      · rw [store_upsert_lookup_ne _ _ _ _ _ hkB,
          store_upsert_lookup_ne _ _ _ _ _ hkA,
          store_upsert_lookup_ne _ _ _ _ _ hkA,
          store_upsert_lookup_ne _ _ _ _ _ hkB]
  · -- versions agree
    simp only [hro_version, hro_store]
    rw [fB, fA]
    cases huA : (store_upsert st.store a.myself.peer_id a t).1 <;>
      cases huB : (store_upsert st.store b.myself.peer_id b t).1 <;>
        simp
  · -- per-destination costs agree
    intro d
    simp only [hro_table, hro_store, hro_myId]
    rw [fB, fA]
    cases huA : (store_upsert st.store a.myself.peer_id a t).1 <;>
      cases huB : (store_upsert st.store b.myself.peer_id b t).1
    · -- neither updates: both tables are st.table
      simp
    · -- only b updates
      simp only [Bool.false_eq_true, if_false, if_true]
      have hVK : storeVK (store_upsert
          (store_upsert st.store b.myself.peer_id b t).2
          a.myself.peer_id a t).2 =
          storeVK (store_upsert st.store b.myself.peer_id b t).2 :=
        storeVK_upsert_not_updated _ _ a t hndB (fA.trans huA)
      have hp2 : (storeVK (store_upsert
          (store_upsert st.store a.myself.peer_id a t).2
          b.myself.peer_id b t).2).Perm
          (storeVK (store_upsert st.store b.myself.peer_id b t).2) :=
        hVK ▸ hpk
      exact tcost_perm st.myId d _ _ hp2
    · -- only a updates
      simp only [Bool.false_eq_true, if_false, if_true]
      have hVK : storeVK (store_upsert
          (store_upsert st.store a.myself.peer_id a t).2
          b.myself.peer_id b t).2 =
          storeVK (store_upsert st.store a.myself.peer_id a t).2 :=
        storeVK_upsert_not_updated _ _ b t hndA (fB.trans huB)
      have hp2 : (storeVK (store_upsert st.store a.myself.peer_id a t).2).Perm
          (storeVK (store_upsert
            (store_upsert st.store b.myself.peer_id b t).2
            a.myself.peer_id a t).2) :=
        hVK ▸ hpk
      exact tcost_perm st.myId d _ _ hp2
    · -- both update
      simp only [if_true]
      exact tcost_perm st.myId d _ _ hpk

theorem rip_c5_commutes_witness :
    (∀ k, alookup egAB.store k = alookup egBA.store k) ∧
      egAB.version = egBA.version ∧
      ∀ d, (egAB.table.route_info d).map (fun e => e.cost) =
        (egBA.table.route_info d).map (fun e => e.cost) :=
  rip_c5_commutes egState0 egAdvA egAdvB 0 1 2 rfl rfl (by omega)
    (by decide) _ egAB _ egBA rfl rfl rfl rfl
